import Mathlib

/-!
# aspgo `viewstate`: a shallow embedding of the decoder and its container

Source files: `src/viewstate/parse.go` and `src/viewstate/viewstate.go`.

Modelling conventions.

* A Go `[]byte` cursor is a `List Byte`; a `nil` slice and an empty slice are both `[]`.
  Re-slicing `body[i:]` is `List.drop`, and reading `body[i]` past the end is a run-time
  panic, which the embedding records as the outcome `Res.panic`.
* Go `int` is taken to be 64 bits wide (as on amd64 and arm64): an `int` is an `Int`, and
  the one place that does arithmetic on it (`parseInteger`) works on the 64-bit pattern and
  reads it back as a signed number.
* A Go function returning `(T, []byte, error)` returns `Res T`: `ok v rest` when the error
  is `nil`, `err v rest e` otherwise (with the value and slice the Go code returns next to
  the error).
* `parse` is recursive through the composite decoders.  The composite decoders take the
  recursive callee as an argument `p`; `parseFuel` ties the knot by recursion on a fuel
  counter and `parse` runs it with fuel `len(body) + 1`, which is shown to be enough.
* Allocation (`make`) is assumed to succeed whenever the requested length is non-negative.
-/

namespace Aspgo

/-- One octet. -/
abbrev Byte := Fin 256

/-- The three errors created with `errors.New` in the package, named after their message:
"invalid viewstate, too short", "invalid viewstate, bad preamble",
"invalid viewstate, unknown marker". -/
inductive Err where
  | tooShort
  | badPreamble
  | unknownMarker
  deriving DecidableEq, Repr

/-- The dynamic values (`any`) that the decoders produce. -/
inductive Value where
  /-- The untyped `nil`. -/
  | nil
  /-- A Go `string`, as its bytes. -/
  | str (s : List Byte)
  /-- A Go `int`. -/
  | int (n : Int)
  /-- A Go `bool`. -/
  | bool (b : Bool)
  /-- A `[2]any`. -/
  | pair (first second : Value)
  /-- A `[3]any`. -/
  | triplet (first second third : Value)
  /-- The zero `time.Time{}`. -/
  | time
  /-- A `color.RGBA`. -/
  | rgba (r g b a : Byte)
  /-- A `[]string`. -/
  | strSlice (xs : List (List Byte))
  /-- A `[]any`. -/
  | slice (xs : List Value)
  /-- A `map[string]any`, kept as an association list sorted by key without duplicates. -/
  | map (m : List (List Byte × Value))
  /-- A `[]byte`. -/
  | bytes (b : List Byte)

/-- Outcome of a call of a decoder of Go type `(T, []byte, error)`. -/
inductive Res (α : Type) where
  /-- Returned with a `nil` error. -/
  | ok (val : α) (rest : List Byte)
  /-- Returned with a non-`nil` error. -/
  | err (val : α) (rest : List Byte) (e : Err)
  /-- Run-time panic (index or slice bounds out of range). -/
  | panic
  /-- The fuel of the embedding ran out. -/
  | diverge
  deriving DecidableEq

/-- The idiom `x, body, err := f(..); if err != nil { return zero, nil, err }; k(x, body)`. -/
def Res.bind {α β : Type} (r : Res α) (zero : β) (k : α → List Byte → Res β) : Res β :=
  match r with
  | .ok v rest => k v rest
  | .err _ _ e => .err zero [] e
  | .panic => .panic
  | .diverge => .diverge

/-- The implicit conversion of a typed result to `any` in `return parseX(remain)`. -/
def Res.map {α β : Type} (f : α → β) (r : Res α) : Res β :=
  match r with
  | .ok v rest => .ok (f v) rest
  | .err v rest e => .err (f v) rest e
  | .panic => .panic
  | .diverge => .diverge

/-! ## Rendering with `fmt` -/

/-- Decimal digits of a natural number, as ASCII bytes. -/
def fmtNat (n : Nat) : List Byte :=
  (Nat.toDigits 10 n).map fun c => Fin.ofNat c.toNat

/-- The verb `%d` (and `%v`) on an `int`. -/
def fmtInt (n : Int) : List Byte :=
  if n < 0 then 45 :: fmtNat n.natAbs else fmtNat n.toNat

/-- Items separated by one space. -/
def joinSp : List (List Byte) → List Byte
  | [] => []
  | [x] => x
  | x :: y :: xs => x ++ 32 :: joinSp (y :: xs)

/-- The verb `%v` on a `[]byte`: `[1 2 3]`. -/
def fmtBytes (b : List Byte) : List Byte :=
  91 :: joinSp (b.map fun x => fmtNat x.val) ++ [93]

mutual
/-- The verb `%v` of Go's `fmt` on a decoded value. -/
def fmtV : Value → List Byte
  | .nil => [60, 110, 105, 108, 62]                               -- <nil>
  | .str s => s
  | .int n => fmtInt n
  | .bool true => [116, 114, 117, 101]                            -- true
  | .bool false => [102, 97, 108, 115, 101]                       -- false
  | .pair a b => 91 :: fmtV a ++ 32 :: fmtV b ++ [93]             -- [a b]
  | .triplet a b c => 91 :: fmtV a ++ 32 :: fmtV b ++ 32 :: fmtV c ++ [93]
  | .time =>                                                      -- 0001-01-01 00:00:00 +0000 UTC
      [48, 48, 48, 49, 45, 48, 49, 45, 48, 49, 32, 48, 48, 58, 48, 48, 58, 48, 48, 32,
       43, 48, 48, 48, 48, 32, 85, 84, 67]
  | .rgba r g b a =>                                              -- {r g b a}
      123 :: fmtNat r.val ++ 32 :: fmtNat g.val ++ 32 :: fmtNat b.val ++ 32 :: fmtNat a.val ++ [125]
  | .strSlice xs => 91 :: joinSp xs ++ [93]
  | .slice xs => 91 :: fmtVs xs ++ [93]
  | .map m => [109, 97, 112, 91] ++ fmtKVs m ++ [93]              -- map[k:v k:v]
  | .bytes b => fmtBytes b
/-- The elements of a `[]any`, separated by spaces. -/
def fmtVs : List Value → List Byte
  | [] => []
  | [x] => fmtV x
  | x :: y :: xs => fmtV x ++ 32 :: fmtVs (y :: xs)
/-- The entries `key:value` of a map in key order, separated by spaces. -/
def fmtKVs : List (List Byte × Value) → List Byte
  | [] => []
  | [(k, v)] => k ++ 58 :: fmtV v
  | (k, v) :: e :: m => k ++ 58 :: fmtV v ++ 32 :: fmtKVs (e :: m)
end

/-- The assignment `m[k] = v` on the sorted association list. -/
def mapInsert (k : List Byte) (v : Value) :
    List (List Byte × Value) → List (List Byte × Value)
  | [] => [(k, v)]
  | (k', v') :: m =>
      if k = k' then (k, v) :: m
      else if k < k' then (k, v) :: (k', v') :: m
      else (k', v') :: mapInsert k v m

/-! ## `parse.go` -/

/-- The signed reading of a 64-bit pattern. -/
def toInt64 (w : Nat) : Int :=
  if w % 2 ^ 64 < 2 ^ 63 then ((w % 2 ^ 64 : Nat) : Int) else ((w % 2 ^ 64 : Nat) : Int) - 2 ^ 64

/-- The loop of `parseInteger`; the first argument is `body[i:]`, and `n`, `bits` are the
loop variables (`n` as a 64-bit pattern). -/
def parseIntegerLoop : List Byte → Nat → Nat → Res Int
  | cur, n, bits =>
    if bits < 32 then
      match cur with
      | [] => .panic                                   -- body[i]: index out of range
      | tmp :: cur' =>
        let n' := n ||| (((tmp.val &&& 0x7f) <<< bits) % 2 ^ 64)
        if tmp.val &&& 0x80 = 0 then .ok (toInt64 n') cur'
        else parseIntegerLoop cur' n' (bits + 7)
    else .ok (toInt64 n) cur

/-- Go `parseInteger`. -/
def parseInteger (body : List Byte) : Res Int :=
  parseIntegerLoop body 0 0

/-- Go `parseString`: `string(body[:n]), body[n:]`.  (`body[:n]` is checked against the
capacity and `body[n:]` against the length, so the pair panics exactly when `n` is negative
or exceeds the length.) -/
def parseString (body : List Byte) : Res (List Byte) :=
  (parseInteger body).bind [] fun n body =>
    if 0 ≤ n ∧ n.toNat ≤ body.length then .ok (body.take n.toNat) (body.drop n.toNat)
    else .panic

/-- Go `parseEnum`: `fmt.Sprintf("%v:%d", enum, val)`. -/
def parseEnum (p : List Byte → Res Value) (body : List Byte) : Res (List Byte) :=
  (p body).bind [] fun enum body =>
    (parseInteger body).bind [] fun val body =>
      .ok (fmtV enum ++ 58 :: fmtInt val) body

/-- Go `parseColor`: `fmt.Sprintf("color:%v", body[:1]), body[1:]`. -/
def parseColor (body : List Byte) : Res (List Byte) :=
  match body with
  | [] => .panic
  | c :: rest => .ok ([99, 111, 108, 111, 114, 58] ++ fmtBytes [c]) rest

/-- Go `parsePair`. -/
def parsePair (p : List Byte → Res Value) (body : List Byte) : Res Value :=
  (p body).bind .nil fun first body =>
    (p body).bind .nil fun second body =>
      .ok (.pair first second) body

/-- Go `parseTriplet`. -/
def parseTriplet (p : List Byte → Res Value) (body : List Byte) : Res Value :=
  (p body).bind .nil fun first body =>
    (p body).bind .nil fun second body =>
      (p body).bind .nil fun third body =>
        .ok (.triplet first second third) body

/-- Go `parseTime`: `time.Time{}, body[8:]`. -/
def parseTime (body : List Byte) : Res Value :=
  if 8 ≤ body.length then .ok .time (body.drop 8) else .panic

/-- Go `parseUnit`: `"unit", body[12:]`. -/
def parseUnit (body : List Byte) : Res Value :=
  if 12 ≤ body.length then .ok (.str [117, 110, 105, 116]) (body.drop 12) else .panic

/-- Go `parseRGBA`. -/
def parseRGBA (body : List Byte) : Res Value :=
  match body with
  | r :: g :: b :: a :: rest => .ok (.rgba r g b a) rest
  | _ => .panic

/-- The loop of `parseStringSlice`: `k` iterations remain, `i` is the loop index. -/
def parseStringSliceLoop : Nat → Nat → List (List Byte) → List Byte → Res (List (List Byte))
  | 0, _, slice, body => .ok slice body
  | k + 1, i, slice, body =>
    (parseString body).bind [] fun s body =>
      parseStringSliceLoop k (i + 1) (slice.set i s) body

/-- Go `parseStringSlice`. -/
def parseStringSlice (body : List Byte) : Res (List (List Byte)) :=
  (parseInteger body).bind [] fun n body =>
    if n < 0 then .panic                               -- make: len out of range
    else parseStringSliceLoop n.toNat 0 (List.replicate n.toNat []) body

/-- The loop of `parseSlice` and of `parseTypedSlice`. -/
def parseSliceLoop (p : List Byte → Res Value) :
    Nat → Nat → List Value → List Byte → Res (List Value)
  | 0, _, slice, body => .ok slice body
  | k + 1, i, slice, body =>
    (p body).bind [] fun v body =>
      parseSliceLoop p k (i + 1) (slice.set i v) body

/-- Go `parseSlice`. -/
def parseSlice (p : List Byte → Res Value) (body : List Byte) : Res (List Value) :=
  (parseInteger body).bind [] fun n body =>
    if n < 0 then .panic
    else parseSliceLoop p n.toNat 0 (List.replicate n.toNat .nil) body

/-- Go `parseStringRef`: `fmt.Sprintf("ref:%d", val), body, err`. -/
def parseStringRef (body : List Byte) : Res (List Byte) :=
  (parseInteger body).map fun val => [114, 101, 102, 58] ++ fmtInt val

/-- Go `parseFormattedString`: `fmt.Sprintf("%v %v", s1, s2)`. -/
def parseFormattedString (p : List Byte → Res Value) (body : List Byte) : Res (List Byte) :=
  (p body).bind [] fun s1 body =>
    (parseString body).bind [] fun s2 body =>
      .ok (fmtV s1 ++ 32 :: s2) body

/-- The loop of `parseSparseArray`; `lst[idx] = val` panics when `idx` is out of range. -/
def parseSparseArrayLoop (p : List Byte → Res Value) :
    Nat → List Value → List Byte → Res (List Value)
  | 0, lst, body => .ok lst body
  | k + 1, lst, body =>
    (parseInteger body).bind [] fun idx body =>
      (p body).bind [] fun val body =>
        if 0 ≤ idx ∧ idx.toNat < lst.length then
          parseSparseArrayLoop p k (lst.set idx.toNat val) body
        else .panic

/-- Go `parseSparseArray`. -/
def parseSparseArray (p : List Byte → Res Value) (body : List Byte) : Res (List Value) :=
  (p body).bind [] fun _typ body =>
    (parseInteger body).bind [] fun length body =>
      (parseInteger body).bind [] fun n body =>
        if length < 0 then .panic
        else parseSparseArrayLoop p n.toNat (List.replicate length.toNat .nil) body

/-- The loop of `parseMap`. -/
def parseMapLoop (p : List Byte → Res Value) :
    Nat → List (List Byte × Value) → List Byte → Res (List (List Byte × Value))
  | 0, m, body => .ok m body
  | k + 1, m, body =>
    (p body).bind [] fun key body =>
      (p body).bind [] fun val body =>
        parseMapLoop p k (mapInsert (fmtV key) val m) body

/-- Go `parseMap`: the count is `int(body[0])`. -/
def parseMap (p : List Byte → Res Value) (body : List Byte) :
    Res (List (List Byte × Value)) :=
  match body with
  | [] => .panic
  | c :: body => parseMapLoop p c.val [] body

/-- Go `parseTypedSlice`. -/
def parseTypedSlice (p : List Byte → Res Value) (body : List Byte) : Res (List Value) :=
  (p body).bind [] fun _typ body =>
    (parseInteger body).bind [] fun n body =>
      if n < 0 then .panic
      else parseSliceLoop p n.toNat 0 (List.replicate n.toNat .nil) body

/-- Go `parseBinary`: `body[:n], body[n:]`. -/
def parseBinary (body : List Byte) : Res (List Byte) :=
  (parseInteger body).bind [] fun n body =>
    if 0 ≤ n ∧ n.toNat ≤ body.length then .ok (body.take n.toNat) (body.drop n.toNat)
    else .panic

/-- The `switch marker` of Go `parse` with its fall-through `return`; the recursive calls
go to `p`. -/
def parseSwitch (p : List Byte → Res Value) (marker : Byte) (remain : List Byte) : Res Value :=
  match marker.val with
  | 0x01 => .ok .nil remain
  | 0x64 => .ok .nil remain
  | 0x65 => .ok (.str []) remain
  | 0x66 => .ok (.int 0) remain
  | 0x67 => .ok (.bool true) remain
  | 0x68 => .ok (.bool false) remain
  | 0x02 | 0x2B => (parseInteger remain).map .int
  | 0x05 | 0x1E | 0x2A | 0x29 => (parseString remain).map .str
  | 0x0B => (parseEnum p remain).map .str
  | 0x0A => (parseColor remain).map .str
  | 0x0F => parsePair p remain
  | 0x10 => parseTriplet p remain
  | 0x06 => parseTime remain
  | 0x1B => parseUnit remain
  | 0x09 => parseRGBA remain
  | 0x15 => (parseStringSlice remain).map .strSlice
  | 0x16 => (parseSlice p remain).map .slice
  | 0x1F => (parseStringRef remain).map .str
  | 0x28 => (parseFormattedString p remain).map .str
  | 0x3C => (parseSparseArray p remain).map .slice
  | 0x18 => (parseMap p remain).map .map
  | 0x14 => (parseTypedSlice p remain).map .slice
  | 0x32 => (parseBinary remain).map .bytes
  | _ => .err .nil [] .unknownMarker

/-- The body of Go `parse`, with its recursive calls going to `p`: the length check, then
`marker, remain := body[0], body[1:]` and the switch. -/
def parseStep (p : List Byte → Res Value) (body : List Byte) : Res Value :=
  match body with
  | [] => .err .nil [] .tooShort
  | [_] => .err .nil [] .tooShort
  | marker :: remain => parseSwitch p marker remain

/-- Go `parse` with a bound on the depth of the recursion. -/
def parseFuel : Nat → List Byte → Res Value
  | 0, _ => .diverge
  | fuel + 1, body => parseStep (parseFuel fuel) body

/-- Go `parse`. -/
def parse (body : List Byte) : Res Value :=
  parseFuel (body.length + 1) body

/-! ## `viewstate.go` -/

/-- Go `Viewstate`. -/
structure Viewstate where
  raw : List Byte
  decoded : Value
  mac : String
  signature : List Byte

/-- Outcome of a call of `Decode`: the returned `(any, error)` with the receiver after the
call, or a panic, or divergence. -/
inductive DecodeRes where
  | ret (val : Value) (err : Option Err) (v : Viewstate)
  | panic
  | diverge

/-- Go `(*Viewstate).Decode`, with the decoder it calls as the argument `p`. -/
def Viewstate.DecodeWith (p : List Byte → Res Value) (v : Viewstate) : DecodeRes :=
  if v.raw.length < 2 then .ret .nil (some .tooShort) v
  else if v.raw.take 2 ≠ [0xff, 0x01] then .ret .nil (some .badPreamble) v
  else
    match p (v.raw.drop 2) with
    | .ok decoded remain =>
      if remain.length = 20 then
        .ret decoded none { v with mac := "hmac_sha1", signature := remain }
      else if remain.length = 32 then
        .ret decoded none { v with mac := "hmac_sha256", signature := remain }
      else
        .ret decoded none { v with mac := "unknown", signature := remain }
    | .err _ _ e => .ret .nil (some e) v
    | .panic => .panic
    | .diverge => .diverge

/-- Go `(*Viewstate).Decode`. -/
def Viewstate.Decode (v : Viewstate) : DecodeRes :=
  v.DecodeWith parse

/-! ## Vocabulary of the statements -/

/-- The outcome `r` of a decoder run on `body`, if successful, returns a suffix of `body`
and leaves at least `m` bytes in front of it. -/
def Advances {α : Type} (m : Nat) (r : Res α) (body : List Byte) : Prop :=
  ∀ v rest, r = .ok v rest → ∃ c : List Byte, m ≤ c.length ∧ body = c ++ rest

/-- The two outcomes are equal and are not `diverge`. -/
def Settled {α : Type} (x y : Res α) : Prop :=
  x = y ∧ x ≠ .diverge

/-- The number written by 7-bit groups, least significant group first:
the sum of `(b_i AND 0x7F) * 2^(7*i)`. -/
def varintValue : List Byte → Nat
  | [] => 0
  | b :: bs => (b.val &&& 0x7f) + 2 ^ 7 * varintValue bs

/-- A successful outcome of a decoder run on `body` returns a proper suffix of `body`:
`body = consumed ++ rest` with `consumed` non-empty, and the two lengths add up. -/
def Frames {α : Type} (r : Res α) (body : List Byte) : Prop :=
  ∀ v rest, r = .ok v rest →
    ∃ consumed : List Byte, body = consumed ++ rest ∧ consumed ≠ [] ∧
      consumed.length + rest.length = body.length

/-- Index of the first byte whose continuation bit `0x80` is clear (the length of the
cursor when there is none). -/
def firstClear (body : List Byte) : Nat :=
  body.findIdx fun b => decide (b.val &&& 0x80 = 0)

/-- The `k` explicit entries of a sparse array as the format lays them out on a cursor: each
is a varint index followed by one nested value.  The result is the list of (index, value)
in encoding order with the cursor after the last entry, and `none` when an index or a value
does not decode. -/
def sparseEntries (p : List Byte → Res Value) :
    Nat → List Byte → Option (List (Int × Value) × List Byte)
  | 0, body => some ([], body)
  | k + 1, body =>
    match parseInteger body with
    | .ok idx body1 =>
      match p body1 with
      | .ok val body2 =>
        match sparseEntries p k body2 with
        | some (es, r) => some ((idx, val) :: es, r)
        | none => none
      | _ => none
    | _ => none

/-- The values `xs` are decoded one after the other by `p`, starting at the cursor `cur`,
each from the remainder left by the one before, and `r` is the remainder left by the last. -/
def decodesInOrder (p : List Byte → Res Value) : List Byte → List Value → List Byte → Prop
  | cur, [], r => r = cur
  | cur, x :: xs, r => ∃ cur2, p cur = .ok x cur2 ∧ decodesInOrder p cur2 xs r

/-- The `k` entries of a mapping as the format lays them out on a cursor: each is one nested
value for the key followed by one nested value for the value.  The result is the list of
(key, value) in encoding order with the cursor after the last entry, and `none` when a key
or a value does not decode. -/
def mapEntries (p : List Byte → Res Value) :
    Nat → List Byte → Option (List (Value × Value) × List Byte)
  | 0, body => some ([], body)
  | k + 1, body =>
    match p body with
    | .ok key body1 =>
      match p body1 with
      | .ok val body2 =>
        match mapEntries p k body2 with
        | some (kvs, r) => some ((key, val) :: kvs, r)
        | none => none
      | _ => none
    | _ => none

/-- The read `m[k]` of a map: the value under the key `k`, if there is one. -/
def mapLookup (k : List Byte) : List (List Byte × Value) → Option Value
  | [] => none
  | (k2, v) :: m => if k = k2 then some v else mapLookup k m

/-! ## Framing: what a successful decoder leaves behind -/

theorem Advances.mono {α : Type} {m k : Nat} {r : Res α} {body : List Byte}
    (h : Advances m r body) (hle : k ≤ m) : Advances k r body := by
  intro v rest hr
  obtain ⟨c, hc, hb⟩ := h v rest hr
  exact ⟨c, le_trans hle hc, hb⟩

theorem Advances.length_le {α : Type} {m : Nat} {r : Res α} {body : List Byte}
    (h : Advances m r body) {v : α} {rest : List Byte} (hr : r = .ok v rest) :
    rest.length + m ≤ body.length := by
  obtain ⟨c, hc, rfl⟩ := h v rest hr
  simp only [List.length_append]
  omega

theorem Advances.andThen {α β : Type} {a b : Nat} {r : Res α} {body : List Byte} {z : β}
    {k : α → List Byte → Res β} (h : Advances a r body)
    (hk : ∀ v rest, r = .ok v rest → Advances b (k v rest) rest) :
    Advances (a + b) (r.bind z k) body := by
  intro v rest hr
  cases r with
  | ok v1 r1 =>
    obtain ⟨c1, h1, rfl⟩ := h v1 r1 rfl
    obtain ⟨c2, h2, rfl⟩ := hk v1 r1 rfl v rest hr
    exact ⟨c1 ++ c2, by simp only [List.length_append]; omega, by simp⟩
  | err _ _ _ => simp [Res.bind] at hr
  | panic => simp [Res.bind] at hr
  | diverge => simp [Res.bind] at hr

theorem Advances.toAny {α β : Type} {m : Nat} {r : Res α} {body : List Byte} (f : α → β)
    (h : Advances m r body) : Advances m (r.map f) body := by
  intro v rest hr
  cases r with
  | ok v1 r1 =>
    simp only [Res.map, Res.ok.injEq] at hr
    exact h v1 rest (by rw [hr.2])
  | err _ _ _ => simp [Res.map] at hr
  | panic => simp [Res.map] at hr
  | diverge => simp [Res.map] at hr

theorem advances_ok_drop {α : Type} (v : α) (n : Nat) (body : List Byte)
    (h : n ≤ body.length) : Advances n (Res.ok v (body.drop n)) body := by
  intro v1 rest hr
  simp only [Res.ok.injEq] at hr
  refine ⟨body.take n, by simp [h], ?_⟩
  rw [← hr.2, List.take_append_drop]

theorem advances_of_not_ok {α : Type} (m : Nat) (r : Res α) (body : List Byte)
    (h : ∀ v rest, r ≠ .ok v rest) : Advances m r body :=
  fun v rest hr => absurd hr (h v rest)

theorem advances_ite {α : Type} {m : Nat} {c : Prop} [Decidable c] {x y : Res α}
    {body : List Byte} (hx : c → Advances m x body) (hy : ¬c → Advances m y body) :
    Advances m (if c then x else y) body := by
  split
  · exact hx ‹_›
  · exact hy ‹_›

/-! ## Agreement of two outcomes, neither of which is out of fuel -/

theorem Settled.symm {α : Type} {x y : Res α} (h : Settled x y) : Settled y x :=
  ⟨h.1.symm, h.1 ▸ h.2⟩

theorem Settled.bind {α β : Type} {r r' : Res α} {z : β} {k k' : α → List Byte → Res β}
    (h : Settled r r') (hk : ∀ v rest, r = .ok v rest → Settled (k v rest) (k' v rest)) :
    Settled (r.bind z k) (r'.bind z k') := by
  obtain ⟨rfl, hd⟩ := h
  cases r with
  | ok v rest => exact hk v rest rfl
  | err _ _ _ => exact ⟨rfl, by simp [Res.bind]⟩
  | panic => exact ⟨rfl, by simp [Res.bind]⟩
  | diverge => exact absurd rfl hd

theorem Settled.map {α β : Type} {r r' : Res α} (f : α → β) (h : Settled r r') :
    Settled (r.map f) (r'.map f) := by
  obtain ⟨rfl, hd⟩ := h
  cases r with
  | ok v rest => exact ⟨rfl, by simp [Res.map]⟩
  | err _ _ _ => exact ⟨rfl, by simp [Res.map]⟩
  | panic => exact ⟨rfl, by simp [Res.map]⟩
  | diverge => exact absurd rfl hd

theorem settled_self {α : Type} {x : Res α} (h : x ≠ .diverge) : Settled x x :=
  ⟨rfl, h⟩

theorem settled_ite {α : Type} {c : Prop} [Decidable c] {x y x' y' : Res α}
    (hx : c → Settled x x') (hy : ¬c → Settled y y') :
    Settled (if c then x else y) (if c then x' else y') := by
  split
  · exact hx ‹_›
  · exact hy ‹_›

/-! ## `parseInteger` -/

theorem varintValue_eq_sum (c : List Byte) :
    varintValue c = ∑ i in Finset.range c.length, ((c.getD i 0).val &&& 0x7f) * 2 ^ (7 * i) := by
  induction c with
  | nil => simp [varintValue]
  | cons b bs ih =>
    rw [varintValue, List.length_cons, Finset.sum_range_succ', ih, Finset.mul_sum]
    simp only [List.getD_cons_succ, List.getD_cons_zero, Nat.mul_zero, Nat.pow_zero, Nat.mul_one]
    rw [Nat.add_comm]
    congr 1
    apply Finset.sum_congr rfl
    intro i _
    rw [Nat.mul_add, Nat.pow_add]
    ring

theorem varintValue_lt (c : List Byte) : varintValue c < 2 ^ (7 * c.length) := by
  induction c with
  | nil => simp [varintValue]
  | cons b bs ih =>
    have hb : b.val &&& 0x7f < 2 ^ 7 := Nat.and_lt_two_pow _ (by norm_num)
    rw [varintValue, List.length_cons, Nat.mul_add, Nat.pow_add, Nat.mul_one]
    have h2 : 2 ^ 7 * (varintValue bs + 1) ≤ 2 ^ 7 * 2 ^ (7 * bs.length) :=
      Nat.mul_le_mul_left _ ih
    rw [Nat.mul_comm (2 ^ (7 * bs.length))]
    omega

/-- One step of the accumulator: with `n` below `2^bits` the OR is an addition, and the
64-bit pattern does not wrap. -/
theorem acc_step (n x i : Nat) (hi : i ≤ 4) (hn : n < 2 ^ (7 * i)) :
    n ||| (((x &&& 0x7f) <<< (7 * i)) % 2 ^ 64) = n + 2 ^ (7 * i) * (x &&& 0x7f) := by
  have hx : x &&& 0x7f < 2 ^ 7 := Nat.and_lt_two_pow _ (by norm_num)
  have hpow : (2 : Nat) ^ (7 * i) ≤ 2 ^ 28 := Nat.pow_le_pow_right (by norm_num) (by omega)
  have hlt : (x &&& 0x7f) * 2 ^ (7 * i) < 2 ^ 64 := by
    calc (x &&& 0x7f) * 2 ^ (7 * i) ≤ 2 ^ 7 * 2 ^ 28 :=
          Nat.mul_le_mul (Nat.le_of_lt hx) hpow
      _ < 2 ^ 64 := by norm_num
  rw [Nat.shiftLeft_eq, Nat.mod_eq_of_lt hlt, Nat.or_comm, Nat.mul_comm,
    ← Nat.mul_add_lt_is_or hn, Nat.add_comm]

theorem toInt64_of_lt (n : Nat) (h : n < 2 ^ 35) : toInt64 n = (n : Int) := by
  have h1 : n % 2 ^ 64 = n := Nat.mod_eq_of_lt (by omega)
  unfold toInt64
  rw [h1, if_pos (by omega)]

/-- The loop of `parseInteger` entered at iteration `i` (so `bits = 7 * i`) with an
accumulator below `2^bits`: what it returns, if it returns. -/
theorem parseIntegerLoop_ok : ∀ (cur : List Byte) (n i : Nat), i ≤ 5 → n < 2 ^ (7 * i) →
    ∀ v rest, parseIntegerLoop cur n (7 * i) = .ok v rest →
      ∃ c : List Byte, cur = c ++ rest ∧ (i < 5 → c ≠ []) ∧ i + c.length ≤ 5 ∧
        v = ((n + 2 ^ (7 * i) * varintValue c : Nat) : Int) := by
  intro cur
  induction cur with
  | nil =>
    intro n i hi hn v rest h
    unfold parseIntegerLoop at h
    by_cases hb : 7 * i < 32
    · simp [hb] at h
    · have hi5 : i = 5 := by omega
      subst hi5
      simp only [hb, if_false, Res.ok.injEq] at h
      refine ⟨[], by simp [h.2], by omega, by simp, ?_⟩
      rw [← h.1, toInt64_of_lt n (by simpa using hn)]
      simp [varintValue]
  | cons tmp cur' ih =>
    intro n i hi hn v rest h
    unfold parseIntegerLoop at h
    by_cases hb : 7 * i < 32
    · have hi4 : i ≤ 4 := by omega
      have hx : tmp.val &&& 0x7f < 2 ^ 7 := Nat.and_lt_two_pow _ (by norm_num)
      have hn' : n + 2 ^ (7 * i) * (tmp.val &&& 0x7f) < 2 ^ (7 * (i + 1)) := by
        rw [Nat.mul_add, Nat.pow_add]
        have : 2 ^ (7 * i) * ((tmp.val &&& 0x7f) + 1) ≤ 2 ^ (7 * i) * 2 ^ (7 * 1) :=
          Nat.mul_le_mul_left _ hx
        rw [Nat.mul_add] at this
        omega
      simp only [hb, if_true, acc_step n tmp.val i hi4 hn] at h
      by_cases hc : tmp.val &&& 0x80 = 0
      · simp only [hc, if_true, Res.ok.injEq] at h
        refine ⟨[tmp], by simp [h.2], fun _ => by simp, by simp; omega, ?_⟩
        have hlt : n + 2 ^ (7 * i) * (tmp.val &&& 0x7f) < 2 ^ 35 :=
          lt_of_lt_of_le hn' (Nat.pow_le_pow_right (by norm_num) (by omega))
        rw [← h.1, toInt64_of_lt _ hlt]
        simp [varintValue]
      · simp only [hc, if_false] at h
        have h7 : 7 * i + 7 = 7 * (i + 1) := by ring
        rw [h7] at h
        obtain ⟨c, hcur, _, hlen, hv⟩ := ih _ (i + 1) (by omega) hn' v rest h
        refine ⟨tmp :: c, by simp [hcur], fun _ => by simp, by simp; omega, ?_⟩
        rw [hv]
        congr 1
        rw [varintValue, Nat.mul_add 7 i 1, Nat.pow_add]
        ring
    · have hi5 : i = 5 := by omega
      subst hi5
      simp only [hb, if_false, Res.ok.injEq] at h
      refine ⟨[], by simp [h.2], by omega, by simp, ?_⟩
      rw [← h.1, toInt64_of_lt n (by simpa using hn)]
      simp [varintValue]

/-- Go `parseInteger`, when it returns: the bytes it consumed and the value it computed. -/
theorem parseInteger_ok {body : List Byte} {v : Int} {rest : List Byte}
    (h : parseInteger body = .ok v rest) :
    ∃ c : List Byte, body = c ++ rest ∧ c ≠ [] ∧ c.length ≤ 5 ∧ v = (varintValue c : Int) := by
  obtain ⟨c, hb, hne, hlen, hv⟩ := parseIntegerLoop_ok body 0 0 (by omega) (by norm_num) v rest h
  refine ⟨c, hb, hne (by omega), by omega, ?_⟩
  rw [hv]
  simp

theorem parseInteger_nonneg {body : List Byte} {v : Int} {rest : List Byte}
    (h : parseInteger body = .ok v rest) : 0 ≤ v := by
  obtain ⟨c, _, _, _, hv⟩ := parseInteger_ok h
  rw [hv]
  exact Int.natCast_nonneg _

theorem parseIntegerLoop_not_err : ∀ (cur : List Byte) (n bits : Nat),
    (∀ v rest e, parseIntegerLoop cur n bits ≠ .err v rest e) ∧
      parseIntegerLoop cur n bits ≠ .diverge := by
  intro cur
  induction cur with
  | nil =>
    intro n bits
    unfold parseIntegerLoop
    by_cases hb : bits < 32 <;> simp [hb]
  | cons tmp cur' ih =>
    intro n bits
    unfold parseIntegerLoop
    by_cases hb : bits < 32
    · by_cases hc : tmp.val &&& 0x80 = 0
      · simp [hb, hc]
      · simp only [hb, hc, if_true, if_false]
        exact ih _ _
    · simp [hb]

theorem parseInteger_ne_diverge (body : List Byte) : parseInteger body ≠ .diverge :=
  (parseIntegerLoop_not_err body 0 0).2

theorem parseInteger_ne_err (body : List Byte) (v : Int) (rest : List Byte) (e : Err) :
    parseInteger body ≠ .err v rest e :=
  (parseIntegerLoop_not_err body 0 0).1 v rest e

theorem parseInteger_advances (body : List Byte) : Advances 1 (parseInteger body) body := by
  intro v rest h
  obtain ⟨c, hb, hne, _, _⟩ := parseInteger_ok h
  refine ⟨c, ?_, hb⟩
  cases c with
  | nil => exact absurd rfl hne
  | cons _ _ => simp

/-! ## Framing of the decoders -/

theorem advances_ok_self {α : Type} (v : α) (body : List Byte) :
    Advances 0 (Res.ok v body) body := by
  intro v1 rest hr
  simp only [Res.ok.injEq] at hr
  exact ⟨[], by simp, by simp [hr.2]⟩

theorem advances_take_drop {α : Type} (f : List Byte → α) (n : Int) (body : List Byte) :
    Advances 0 (if 0 ≤ n ∧ n.toNat ≤ body.length then
      Res.ok (f (body.take n.toNat)) (body.drop n.toNat) else Res.panic) body := by
  apply advances_ite
  · intro h
    exact (advances_ok_drop _ _ _ h.2).mono (Nat.zero_le _)
  · intro _
    exact advances_of_not_ok _ _ _ (by simp)

theorem parseString_advances (body : List Byte) : Advances 1 (parseString body) body :=
  ((parseInteger_advances body).andThen (b := 0)
    fun n rest _ => advances_take_drop id n rest).mono (le_refl _)

theorem parseBinary_advances (body : List Byte) : Advances 1 (parseBinary body) body :=
  ((parseInteger_advances body).andThen (b := 0)
    fun n rest _ => advances_take_drop id n rest).mono (le_refl _)

theorem parseStringRef_advances (body : List Byte) : Advances 1 (parseStringRef body) body :=
  (parseInteger_advances body).toAny _

theorem parseColor_advances (body : List Byte) : Advances 1 (parseColor body) body := by
  cases body with
  | nil => exact advances_of_not_ok _ _ _ (by simp [parseColor])
  | cons c rest => exact advances_ok_drop _ 1 (c :: rest) (by simp)

theorem parseTime_advances (body : List Byte) : Advances 1 (parseTime body) body := by
  unfold parseTime
  apply advances_ite
  · intro h
    exact (advances_ok_drop _ 8 body h).mono (by omega)
  · intro _
    exact advances_of_not_ok _ _ _ (by simp)

theorem parseUnit_advances (body : List Byte) : Advances 1 (parseUnit body) body := by
  unfold parseUnit
  apply advances_ite
  · intro h
    exact (advances_ok_drop _ 12 body h).mono (by omega)
  · intro _
    exact advances_of_not_ok _ _ _ (by simp)

theorem parseRGBA_advances (body : List Byte) : Advances 1 (parseRGBA body) body := by
  match body with
  | [] => exact advances_of_not_ok _ _ _ (by simp [parseRGBA])
  | [_] => exact advances_of_not_ok _ _ _ (by simp [parseRGBA])
  | [_, _] => exact advances_of_not_ok _ _ _ (by simp [parseRGBA])
  | [_, _, _] => exact advances_of_not_ok _ _ _ (by simp [parseRGBA])
  | r :: g :: b :: a :: rest =>
    exact (advances_ok_drop _ 4 (r :: g :: b :: a :: rest) (by simp)).mono (by omega)

theorem parseStringSliceLoop_advances : ∀ (k i : Nat) (slice : List (List Byte))
    (body : List Byte), Advances 0 (parseStringSliceLoop k i slice body) body := by
  intro k
  induction k with
  | zero => intro i slice body; exact advances_ok_self _ _
  | succ k ih =>
    intro i slice body
    exact ((parseString_advances body).andThen (b := 0) fun s rest _ => ih _ _ rest).mono
      (Nat.zero_le _)

theorem parseStringSlice_advances (body : List Byte) :
    Advances 1 (parseStringSlice body) body :=
  ((parseInteger_advances body).andThen (b := 0) fun n rest _ =>
    advances_ite (fun _ => advances_of_not_ok _ _ _ (by simp))
      (fun _ => parseStringSliceLoop_advances _ _ _ rest)).mono (le_refl _)

section composite

variable {p : List Byte → Res Value} (hp : ∀ b, Advances 1 (p b) b)
include hp

theorem parseEnum_advances (body : List Byte) : Advances 1 (parseEnum p body) body :=
  ((hp body).andThen (b := 1) fun _ rest _ =>
    ((parseInteger_advances rest).andThen (b := 0) fun _ rest2 _ =>
      advances_ok_self _ rest2).mono (le_refl _)).mono (by omega)

theorem parsePair_advances (body : List Byte) : Advances 1 (parsePair p body) body :=
  ((hp body).andThen (b := 1) fun _ rest _ =>
    ((hp rest).andThen (b := 0) fun _ rest2 _ =>
      advances_ok_self _ rest2).mono (le_refl _)).mono (by omega)

theorem parseTriplet_advances (body : List Byte) : Advances 1 (parseTriplet p body) body :=
  ((hp body).andThen (b := 1) fun _ rest _ =>
    ((hp rest).andThen (b := 1) fun _ rest2 _ =>
      ((hp rest2).andThen (b := 0) fun _ rest3 _ =>
        advances_ok_self _ rest3).mono (le_refl _)).mono (by omega)).mono (by omega)

theorem parseFormattedString_advances (body : List Byte) :
    Advances 1 (parseFormattedString p body) body :=
  ((hp body).andThen (b := 1) fun _ rest _ =>
    ((parseString_advances rest).andThen (b := 0) fun _ rest2 _ =>
      advances_ok_self _ rest2).mono (le_refl _)).mono (by omega)

theorem parseSliceLoop_advances : ∀ (k i : Nat) (slice : List Value) (body : List Byte),
    Advances 0 (parseSliceLoop p k i slice body) body := by
  intro k
  induction k with
  | zero => intro i slice body; exact advances_ok_self _ _
  | succ k ih =>
    intro i slice body
    exact ((hp body).andThen (b := 0) fun v rest _ => ih _ _ rest).mono (Nat.zero_le _)

theorem parseSlice_advances (body : List Byte) : Advances 1 (parseSlice p body) body :=
  ((parseInteger_advances body).andThen (b := 0) fun n rest _ =>
    advances_ite (fun _ => advances_of_not_ok _ _ _ (by simp))
      (fun _ => parseSliceLoop_advances hp _ _ _ rest)).mono (le_refl _)

theorem parseTypedSlice_advances (body : List Byte) :
    Advances 1 (parseTypedSlice p body) body :=
  ((hp body).andThen (b := 1) fun _ rest _ =>
    ((parseInteger_advances rest).andThen (b := 0) fun n rest2 _ =>
      advances_ite (fun _ => advances_of_not_ok _ _ _ (by simp))
        (fun _ => parseSliceLoop_advances hp _ _ _ rest2)).mono (le_refl _)).mono (by omega)

theorem parseSparseArrayLoop_advances : ∀ (k : Nat) (lst : List Value) (body : List Byte),
    Advances 0 (parseSparseArrayLoop p k lst body) body := by
  intro k
  induction k with
  | zero => intro lst body; exact advances_ok_self _ _
  | succ k ih =>
    intro lst body
    exact ((parseInteger_advances body).andThen (b := 0) fun idx rest _ =>
      ((hp rest).andThen (b := 0) fun val rest2 _ =>
        advances_ite (fun _ => ih _ rest2)
          (fun _ => advances_of_not_ok _ _ _ (by simp))).mono (Nat.zero_le _)).mono
      (Nat.zero_le _)

theorem parseSparseArray_advances (body : List Byte) :
    Advances 1 (parseSparseArray p body) body :=
  ((hp body).andThen (b := 0) fun _ rest _ =>
    ((parseInteger_advances rest).andThen (b := 0) fun length rest2 _ =>
      ((parseInteger_advances rest2).andThen (b := 0) fun n rest3 _ =>
        advances_ite (fun _ => advances_of_not_ok _ _ _ (by simp))
          (fun _ => parseSparseArrayLoop_advances hp _ _ rest3)).mono (Nat.zero_le _)).mono
      (Nat.zero_le _)).mono (le_refl _)

theorem parseMapLoop_advances : ∀ (k : Nat) (m : List (List Byte × Value))
    (body : List Byte), Advances 0 (parseMapLoop p k m body) body := by
  intro k
  induction k with
  | zero => intro m body; exact advances_ok_self _ _
  | succ k ih =>
    intro m body
    exact ((hp body).andThen (b := 0) fun key rest _ =>
      ((hp rest).andThen (b := 0) fun val rest2 _ => ih _ rest2).mono (Nat.zero_le _)).mono
      (Nat.zero_le _)

theorem parseMap_advances (body : List Byte) : Advances 1 (parseMap p body) body := by
  cases body with
  | nil => exact advances_of_not_ok _ _ _ (by simp [parseMap])
  | cons c rest =>
    intro v r hr
    obtain ⟨c2, _, hc2⟩ := parseMapLoop_advances hp c.val [] rest v r hr
    exact ⟨c :: c2, by simp, by simp [hc2]⟩

end composite

theorem parseStep_advances {p : List Byte → Res Value} (hp : ∀ b, Advances 1 (p b) b)
    (body : List Byte) : Advances 1 (parseStep p body) body := by
  match body with
  | [] => exact advances_of_not_ok _ _ _ (by simp [parseStep])
  | [_] => exact advances_of_not_ok _ _ _ (by simp [parseStep])
  | marker :: b :: rest =>
    have hdrop : ∀ v : Value, Advances 1 (Res.ok v (b :: rest)) (marker :: b :: rest) :=
      fun v => advances_ok_drop v 1 (marker :: b :: rest) (by simp)
    have hlift : ∀ r : Res Value, Advances 1 r (b :: rest) →
        Advances 1 r (marker :: b :: rest) := by
      intro r hr v rest2 h
      obtain ⟨c, hc, hb⟩ := hr v rest2 h
      exact ⟨marker :: c, by simp, by simp [hb]⟩
    show Advances 1 (parseSwitch p marker (b :: rest)) (marker :: b :: rest)
    unfold parseSwitch
    split
    · exact hdrop _
    · exact hdrop _
    · exact hdrop _
    · exact hdrop _
    · exact hdrop _
    · exact hdrop _
    · exact hlift _ ((parseInteger_advances _).toAny _)
    · exact hlift _ ((parseInteger_advances _).toAny _)
    · exact hlift _ ((parseString_advances _).toAny _)
    · exact hlift _ ((parseString_advances _).toAny _)
    · exact hlift _ ((parseString_advances _).toAny _)
    · exact hlift _ ((parseString_advances _).toAny _)
    · exact hlift _ ((parseEnum_advances hp _).toAny _)
    · exact hlift _ ((parseColor_advances _).toAny _)
    · exact hlift _ (parsePair_advances hp _)
    · exact hlift _ (parseTriplet_advances hp _)
    · exact hlift _ (parseTime_advances _)
    · exact hlift _ (parseUnit_advances _)
    · exact hlift _ (parseRGBA_advances _)
    · exact hlift _ ((parseStringSlice_advances _).toAny _)
    · exact hlift _ ((parseSlice_advances hp _).toAny _)
    · exact hlift _ ((parseStringRef_advances _).toAny _)
    · exact hlift _ ((parseFormattedString_advances hp _).toAny _)
    · exact hlift _ ((parseSparseArray_advances hp _).toAny _)
    · exact hlift _ ((parseMap_advances hp _).toAny _)
    · exact hlift _ ((parseTypedSlice_advances hp _).toAny _)
    · exact hlift _ ((parseBinary_advances _).toAny _)
    · exact advances_of_not_ok _ _ _ (by simp)

theorem parseFuel_advances : ∀ (fuel : Nat) (body : List Byte),
    Advances 1 (parseFuel fuel body) body := by
  intro fuel
  induction fuel with
  | zero => intro body; exact advances_of_not_ok _ _ _ (by simp [parseFuel])
  | succ fuel ih => intro body; exact parseStep_advances ih body

theorem parse_advances (body : List Byte) : Advances 1 (parse body) body :=
  parseFuel_advances _ body

/-! ## Enough fuel: the outcome of `parseFuel` no longer depends on the fuel -/

theorem settled_ok {α : Type} (v : α) (rest : List Byte) :
    Settled (Res.ok v rest) (Res.ok v rest) :=
  settled_self (by simp)

theorem settled_panic {α : Type} : Settled (Res.panic : Res α) Res.panic :=
  settled_self (by simp)

theorem parseInteger_settled (body : List Byte) :
    Settled (parseInteger body) (parseInteger body) :=
  settled_self (parseInteger_ne_diverge body)

theorem parseString_settled (body : List Byte) :
    Settled (parseString body) (parseString body) :=
  (parseInteger_settled body).bind fun _ _ _ =>
    settled_ite (fun _ => settled_ok _ _) (fun _ => settled_panic)

theorem parseBinary_settled (body : List Byte) :
    Settled (parseBinary body) (parseBinary body) :=
  (parseInteger_settled body).bind fun _ _ _ =>
    settled_ite (fun _ => settled_ok _ _) (fun _ => settled_panic)

theorem parseStringRef_settled (body : List Byte) :
    Settled (parseStringRef body) (parseStringRef body) :=
  (parseInteger_settled body).map _

theorem parseColor_settled (body : List Byte) :
    Settled (parseColor body) (parseColor body) := by
  cases body with
  | nil => exact settled_panic
  | cons c rest => exact settled_ok _ _

theorem parseTime_settled (body : List Byte) : Settled (parseTime body) (parseTime body) :=
  settled_ite (fun _ => settled_ok _ _) (fun _ => settled_panic)

theorem parseUnit_settled (body : List Byte) : Settled (parseUnit body) (parseUnit body) :=
  settled_ite (fun _ => settled_ok _ _) (fun _ => settled_panic)

theorem parseRGBA_settled (body : List Byte) : Settled (parseRGBA body) (parseRGBA body) := by
  match body with
  | [] => exact settled_panic
  | [_] => exact settled_panic
  | [_, _] => exact settled_panic
  | [_, _, _] => exact settled_panic
  | _ :: _ :: _ :: _ :: _ => exact settled_ok _ _

theorem parseStringSliceLoop_settled : ∀ (k i : Nat) (slice : List (List Byte))
    (body : List Byte),
    Settled (parseStringSliceLoop k i slice body) (parseStringSliceLoop k i slice body) := by
  intro k
  induction k with
  | zero => intro i slice body; exact settled_ok _ _
  | succ k ih =>
    intro i slice body
    exact (parseString_settled body).bind fun _ _ _ => ih _ _ _

theorem parseStringSlice_settled (body : List Byte) :
    Settled (parseStringSlice body) (parseStringSlice body) :=
  (parseInteger_settled body).bind fun _ _ _ =>
    settled_ite (fun _ => settled_panic) (fun _ => parseStringSliceLoop_settled _ _ _ _)

section fuel

variable {p q : List Byte → Res Value} {L : Nat} (hp : ∀ b, Advances 1 (p b) b)
  (hpq : ∀ b : List Byte, b.length < L → Settled (p b) (q b))
include hp hpq

theorem parseEnum_settled (body : List Byte) (hb : body.length < L) :
    Settled (parseEnum p body) (parseEnum q body) :=
  (hpq body hb).bind fun _ rest h1 =>
    have _h1 := (hp body).length_le h1
    (parseInteger_settled rest).bind fun _ _ _ => settled_ok _ _

theorem parsePair_settled (body : List Byte) (hb : body.length < L) :
    Settled (parsePair p body) (parsePair q body) :=
  (hpq body hb).bind fun _ rest h1 =>
    have h1 := (hp body).length_le h1
    (hpq rest (by omega)).bind fun _ _ _ => settled_ok _ _

theorem parseTriplet_settled (body : List Byte) (hb : body.length < L) :
    Settled (parseTriplet p body) (parseTriplet q body) :=
  (hpq body hb).bind fun _ rest h1 =>
    have h1 := (hp body).length_le h1
    (hpq rest (by omega)).bind fun _ rest2 h2 =>
      have h2 := (hp rest).length_le h2
      (hpq rest2 (by omega)).bind fun _ _ _ => settled_ok _ _

theorem parseFormattedString_settled (body : List Byte) (hb : body.length < L) :
    Settled (parseFormattedString p body) (parseFormattedString q body) :=
  (hpq body hb).bind fun _ rest h1 =>
    have _h1 := (hp body).length_le h1
    (parseString_settled rest).bind fun _ _ _ => settled_ok _ _

theorem parseSliceLoop_settled : ∀ (k i : Nat) (slice : List Value) (body : List Byte),
    body.length < L →
    Settled (parseSliceLoop p k i slice body) (parseSliceLoop q k i slice body) := by
  intro k
  induction k with
  | zero => intro i slice body _; exact settled_ok _ _
  | succ k ih =>
    intro i slice body hb
    exact (hpq body hb).bind fun _ rest h1 =>
      have h1 := (hp body).length_le h1
      ih _ _ rest (by omega)

theorem parseSlice_settled (body : List Byte) (hb : body.length < L) :
    Settled (parseSlice p body) (parseSlice q body) :=
  (parseInteger_settled body).bind fun _ rest h1 =>
    have h1 := (parseInteger_advances body).length_le h1
    settled_ite (fun _ => settled_panic)
      (fun _ => parseSliceLoop_settled hp hpq _ _ _ rest (by omega))

theorem parseTypedSlice_settled (body : List Byte) (hb : body.length < L) :
    Settled (parseTypedSlice p body) (parseTypedSlice q body) :=
  (hpq body hb).bind fun _ rest h1 =>
    have h1 := (hp body).length_le h1
    (parseInteger_settled rest).bind fun _ rest2 h2 =>
      have h2 := (parseInteger_advances rest).length_le h2
      settled_ite (fun _ => settled_panic)
        (fun _ => parseSliceLoop_settled hp hpq _ _ _ rest2 (by omega))

theorem parseSparseArrayLoop_settled : ∀ (k : Nat) (lst : List Value) (body : List Byte),
    body.length < L →
    Settled (parseSparseArrayLoop p k lst body) (parseSparseArrayLoop q k lst body) := by
  intro k
  induction k with
  | zero => intro lst body _; exact settled_ok _ _
  | succ k ih =>
    intro lst body hb
    exact (parseInteger_settled body).bind fun _ rest h1 =>
      have h1 := (parseInteger_advances body).length_le h1
      (hpq rest (by omega)).bind fun _ rest2 h2 =>
        have h2 := (hp rest).length_le h2
        settled_ite (fun _ => ih _ rest2 (by omega)) (fun _ => settled_panic)

theorem parseSparseArray_settled (body : List Byte) (hb : body.length < L) :
    Settled (parseSparseArray p body) (parseSparseArray q body) :=
  (hpq body hb).bind fun _ rest h1 =>
    have h1 := (hp body).length_le h1
    (parseInteger_settled rest).bind fun _ rest2 h2 =>
      have h2 := (parseInteger_advances rest).length_le h2
      (parseInteger_settled rest2).bind fun _ rest3 h3 =>
        have h3 := (parseInteger_advances rest2).length_le h3
        settled_ite (fun _ => settled_panic)
          (fun _ => parseSparseArrayLoop_settled hp hpq _ _ rest3 (by omega))

theorem parseMapLoop_settled : ∀ (k : Nat) (m : List (List Byte × Value)) (body : List Byte),
    body.length < L →
    Settled (parseMapLoop p k m body) (parseMapLoop q k m body) := by
  intro k
  induction k with
  | zero => intro m body _; exact settled_ok _ _
  | succ k ih =>
    intro m body hb
    exact (hpq body hb).bind fun _ rest h1 =>
      have h1 := (hp body).length_le h1
      (hpq rest (by omega)).bind fun _ rest2 h2 =>
        have h2 := (hp rest).length_le h2
        ih _ rest2 (by omega)

theorem parseMap_settled (body : List Byte) (hb : body.length < L) :
    Settled (parseMap p body) (parseMap q body) := by
  cases body with
  | nil => exact settled_panic
  | cons c rest =>
    exact parseMapLoop_settled hp hpq _ _ rest (by simp at hb; omega)

theorem parseSwitch_settled (marker : Byte) (remain : List Byte) (hb : remain.length < L) :
    Settled (parseSwitch p marker remain) (parseSwitch q marker remain) := by
  unfold parseSwitch
  split
  · exact settled_ok _ _
  · exact settled_ok _ _
  · exact settled_ok _ _
  · exact settled_ok _ _
  · exact settled_ok _ _
  · exact settled_ok _ _
  · exact (parseInteger_settled _).map _
  · exact (parseInteger_settled _).map _
  · exact (parseString_settled _).map _
  · exact (parseString_settled _).map _
  · exact (parseString_settled _).map _
  · exact (parseString_settled _).map _
  · exact (parseEnum_settled hp hpq _ hb).map _
  · exact (parseColor_settled _).map _
  · exact parsePair_settled hp hpq _ hb
  · exact parseTriplet_settled hp hpq _ hb
  · exact parseTime_settled _
  · exact parseUnit_settled _
  · exact parseRGBA_settled _
  · exact (parseStringSlice_settled _).map _
  · exact (parseSlice_settled hp hpq _ hb).map _
  · exact (parseStringRef_settled _).map _
  · exact (parseFormattedString_settled hp hpq _ hb).map _
  · exact (parseSparseArray_settled hp hpq _ hb).map _
  · exact (parseMap_settled hp hpq _ hb).map _
  · exact (parseTypedSlice_settled hp hpq _ hb).map _
  · exact (parseBinary_settled _).map _
  · exact settled_self (by simp)

theorem parseStep_settled (body : List Byte) (hb : body.length ≤ L) :
    Settled (parseStep p body) (parseStep q body) := by
  match body with
  | [] => exact settled_self (by simp [parseStep])
  | [_] => exact settled_self (by simp [parseStep])
  | marker :: b :: rest =>
    exact parseSwitch_settled hp hpq marker (b :: rest) (by simp at hb ⊢; omega)

end fuel

/-- With more fuel than the body has bytes, the outcome of `parseFuel` is not `diverge` and
does not change when fuel is added. -/
theorem parseFuel_settled : ∀ (n m : Nat) (body : List Byte), body.length < n → n ≤ m →
    Settled (parseFuel n body) (parseFuel m body) := by
  intro n
  induction n with
  | zero => intro m body hb _; omega
  | succ k ih =>
    intro m body hb hm
    obtain ⟨j, rfl⟩ : ∃ j, m = j + 1 := ⟨m - 1, by omega⟩
    exact parseStep_settled (parseFuel_advances k)
      (fun b hlt => ih j b hlt (by omega)) body (by omega)

/-- Go `parse` is never out of fuel. -/
theorem parse_ne_diverge (body : List Byte) : parse body ≠ .diverge :=
  (parseFuel_settled _ _ body (Nat.lt_succ_self _) (le_refl _)).2

/-- The defining equation of Go `parse`: its body, with the recursive calls going to `parse`
itself. -/
theorem parse_unfold (body : List Byte) : parse body = parseStep parse body :=
  (parseStep_settled (L := body.length) (parseFuel_advances body.length)
    (fun b hlt => (parseFuel_settled (b.length + 1) body.length b
      (Nat.lt_succ_self _) (by omega)).symm) body (le_refl _)).1

theorem parse_cons_cons (marker b : Byte) (rest : List Byte) :
    parse (marker :: b :: rest) = parseSwitch parse marker (b :: rest) := by
  rw [parse_unfold]
  rfl

/-! ## The cursor invariant -/

theorem Advances.frames {α : Type} {r : Res α} {body : List Byte} (h : Advances 1 r body) :
    Frames r body := by
  intro v rest hr
  obtain ⟨c, hc, rfl⟩ := h v rest hr
  refine ⟨c, rfl, ?_, by simp⟩
  intro h0
  rw [h0] at hc
  simp at hc

theorem parseIntegerLoop_drop : ∀ (cur : List Byte) (n i : Nat), i ≤ 5 → 5 - i ≤ cur.length →
    ∃ v, parseIntegerLoop cur n (7 * i) = .ok v (cur.drop (min (5 - i) (firstClear cur + 1))) := by
  intro cur
  induction cur with
  | nil =>
    intro n i hi hlen
    have hi5 : i = 5 := by simp at hlen; omega
    subst hi5
    unfold parseIntegerLoop
    exact ⟨toInt64 n, by simp⟩
  | cons tmp cur' ih =>
    intro n i hi hlen
    unfold parseIntegerLoop
    by_cases hb : 7 * i < 32
    · by_cases hc : tmp.val &&& 0x80 = 0
      · refine ⟨toInt64 (n ||| (((tmp.val &&& 0x7f) <<< (7 * i)) % 2 ^ 64)), ?_⟩
        simp only [hb, hc, if_true]
        have h0 : firstClear (tmp :: cur') = 0 := by
          simp [firstClear, List.findIdx_cons, hc]
        have hmin : min (5 - i) (firstClear (tmp :: cur') + 1) = 1 := by
          rw [h0]; omega
        rw [hmin]
        rfl
      · simp only [hb, hc, if_true, if_false]
        have h7 : 7 * i + 7 = 7 * (i + 1) := by ring
        rw [h7]
        obtain ⟨v, hv⟩ := ih (n ||| (((tmp.val &&& 0x7f) <<< (7 * i)) % 2 ^ 64)) (i + 1)
          (by omega) (by simp at hlen; omega)
        refine ⟨v, ?_⟩
        rw [hv]
        have h1 : firstClear (tmp :: cur') = firstClear cur' + 1 := by
          simp [firstClear, List.findIdx_cons, hc]
        have hmin : min (5 - i) (firstClear (tmp :: cur') + 1)
            = min (5 - (i + 1)) (firstClear cur' + 1) + 1 := by
          rw [h1]; omega
        rw [hmin]
        rfl
    · have hi5 : i = 5 := by omega
      subst hi5
      exact ⟨toInt64 n, by simp⟩


/-! ## Claims -/

/-- C1: whenever `parse`, or any individual decoder, succeeds on a cursor, the remainder it
returns is a suffix of that cursor, the consumed prefix is non-empty, and the lengths of
the consumed prefix and of the remainder add up to the length of the cursor. -/
theorem C1_decoders_return_proper_suffix (body : List Byte) :
    Frames (parse body) body ∧
    Frames (parseInteger body) body ∧
    Frames (parseString body) body ∧
    Frames (parseEnum parse body) body ∧
    Frames (parseColor body) body ∧
    Frames (parsePair parse body) body ∧
    Frames (parseTriplet parse body) body ∧
    Frames (parseTime body) body ∧
    Frames (parseUnit body) body ∧
    Frames (parseRGBA body) body ∧
    Frames (parseStringSlice body) body ∧
    Frames (parseSlice parse body) body ∧
    Frames (parseStringRef body) body ∧
    Frames (parseFormattedString parse body) body ∧
    Frames (parseSparseArray parse body) body ∧
    Frames (parseMap parse body) body ∧
    Frames (parseTypedSlice parse body) body ∧
    Frames (parseBinary body) body :=
  ⟨(parse_advances body).frames,
   (parseInteger_advances body).frames,
   (parseString_advances body).frames,
   (parseEnum_advances parse_advances body).frames,
   (parseColor_advances body).frames,
   (parsePair_advances parse_advances body).frames,
   (parseTriplet_advances parse_advances body).frames,
   (parseTime_advances body).frames,
   (parseUnit_advances body).frames,
   (parseRGBA_advances body).frames,
   (parseStringSlice_advances body).frames,
   (parseSlice_advances parse_advances body).frames,
   (parseStringRef_advances body).frames,
   (parseFormattedString_advances parse_advances body).frames,
   (parseSparseArray_advances parse_advances body).frames,
   (parseMap_advances parse_advances body).frames,
   (parseTypedSlice_advances parse_advances body).frames,
   (parseBinary_advances body).frames⟩

/-- Witness of C1: the pair `[0x0F, 0x02, 0x05, 0x64, 0x64]` decodes and leaves `[0x64]`,
a proper suffix. -/
theorem C1_decoders_return_proper_suffix_witness :
    parse [0x0F, 0x02, 0x05, 0x64, 0x64] = .ok (.pair (.int 5) .nil) [0x64] ∧
    ∃ consumed : List Byte, [0x0F, 0x02, 0x05, 0x64, 0x64] = consumed ++ [0x64] ∧
      consumed ≠ [] ∧ consumed.length + [(0x64 : Byte)].length
        = [(0x0F : Byte), 0x02, 0x05, 0x64, 0x64].length :=
  ⟨rfl, (C1_decoders_return_proper_suffix [0x0F, 0x02, 0x05, 0x64, 0x64]).1
    (.pair (.int 5) .nil) [0x64] rfl⟩

/-- C2: when `parseInteger` succeeds having consumed the bytes `b_0 .. b_(k-1)`, the integer
it returns is the sum over `i < k` of `(b_i AND 0x7F) * 2^(7*i)`; it is non-negative and
below `2^35`.  `[0x00]` gives 0, `[0x7F]` gives 127 and `[0x80, 0x01]` gives 128. -/
theorem C2_parseInteger_value (body : List Byte) (v : Int) (rest : List Byte)
    (h : parseInteger body = .ok v rest) :
    (∃ consumed : List Byte, body = consumed ++ rest ∧
      v = ((∑ i in Finset.range consumed.length,
            ((consumed.getD i 0).val &&& 0x7F) * 2 ^ (7 * i) : Nat) : Int)) ∧
    0 ≤ v ∧ v < 2 ^ 35 ∧
    parseInteger [0x00] = .ok 0 [] ∧
    parseInteger [0x7F] = .ok 127 [] ∧
    parseInteger [0x80, 0x01] = .ok 128 [] := by
  obtain ⟨c, hb, _, hlen, hv⟩ := parseInteger_ok h
  refine ⟨⟨c, hb, ?_⟩, parseInteger_nonneg h, ?_, by decide, by decide, by decide⟩
  · rw [hv, varintValue_eq_sum]
  · rw [hv]
    have h1 : varintValue c < 2 ^ (7 * c.length) := varintValue_lt c
    have h2 : (2 : Nat) ^ (7 * c.length) ≤ 2 ^ 35 :=
      Nat.pow_le_pow_right (by norm_num) (by omega)
    have h3 : varintValue c < 2 ^ 35 := lt_of_lt_of_le h1 h2
    exact_mod_cast h3

/-- Witness of C2: the two bytes `[0xAC, 0x02]` followed by `[0x07]` decode to
`0x2C + 2 * 128 = 300`. -/
theorem C2_parseInteger_value_witness :
    parseInteger [0xAC, 0x02, 0x07] = .ok 300 [0x07] ∧
    ((∃ consumed : List Byte, [0xAC, 0x02, 0x07] = consumed ++ [(0x07 : Byte)] ∧
      (300 : Int) = ((∑ i in Finset.range consumed.length,
            ((consumed.getD i 0).val &&& 0x7F) * 2 ^ (7 * i) : Nat) : Int)) ∧
    (0 : Int) ≤ 300 ∧ (300 : Int) < 2 ^ 35 ∧
    parseInteger [0x00] = .ok 0 [] ∧
    parseInteger [0x7F] = .ok 127 [] ∧
    parseInteger [0x80, 0x01] = .ok 128 []) :=
  ⟨by decide, C2_parseInteger_value [0xAC, 0x02, 0x07] 300 [0x07] (by decide)⟩

/-- C3: on a cursor of at least 5 bytes `parseInteger` succeeds and consumes exactly
`min 5 (j + 1)` bytes, `j` being the index of the first byte whose bit `0x80` is clear; so
it never consumes more than 5 bytes, and when the first 5 bytes all have the bit set it
consumes exactly 5 and returns the cursor from the 6th byte on. -/
theorem C3_parseInteger_consumes (body : List Byte) (h : 5 ≤ body.length) :
    ∃ v, parseInteger body = .ok v (body.drop (min 5 (firstClear body + 1))) ∧
      min 5 (firstClear body + 1) ≤ 5 ∧
      ((∀ i : Fin body.length, i.val < 5 → (body.get i).val &&& 0x80 ≠ 0) →
        parseInteger body = .ok v (body.drop 5)) := by
  obtain ⟨v, hv⟩ := parseIntegerLoop_drop body 0 0 (by omega) (by omega)
  refine ⟨v, hv, by omega, ?_⟩
  intro hall
  have hge : 5 ≤ firstClear body := by
    by_contra hlt
    have hlt : firstClear body < 5 := by omega
    have hlen : firstClear body < body.length := by omega
    have hget := List.findIdx_getElem (w := hlen)
    have := hall ⟨firstClear body, hlen⟩ hlt
    simp only [decide_eq_true_eq] at hget
    exact this hget
  have hmin : min 5 (firstClear body + 1) = 5 := by omega
  have hv2 := hv
  simp only [Nat.mul_zero, Nat.sub_zero, hmin] at hv2
  exact hv2

/-- Witness of C3: five bytes with the continuation bit set, followed by `[0x01, 0x02]`:
exactly five bytes are consumed. -/
theorem C3_parseInteger_consumes_witness :
    5 ≤ ([0x80, 0x80, 0x80, 0x80, 0x80, 0x01, 0x02] : List Byte).length ∧
    parseInteger [0x80, 0x80, 0x80, 0x80, 0x80, 0x01, 0x02] = .ok 0 [0x01, 0x02] ∧
    ∃ v, parseInteger [0x80, 0x80, 0x80, 0x80, 0x80, 0x01, 0x02]
        = .ok v (([0x80, 0x80, 0x80, 0x80, 0x80, 0x01, 0x02] : List Byte).drop
            (min 5 (firstClear [0x80, 0x80, 0x80, 0x80, 0x80, 0x01, 0x02] + 1))) ∧
      min 5 (firstClear [0x80, 0x80, 0x80, 0x80, 0x80, 0x01, 0x02] + 1) ≤ 5 ∧
      ((∀ i : Fin ([0x80, 0x80, 0x80, 0x80, 0x80, 0x01, 0x02] : List Byte).length, i.val < 5 →
          (([0x80, 0x80, 0x80, 0x80, 0x80, 0x01, 0x02] : List Byte).get i).val &&& 0x80 ≠ 0) →
        parseInteger [0x80, 0x80, 0x80, 0x80, 0x80, 0x01, 0x02]
          = .ok v (([0x80, 0x80, 0x80, 0x80, 0x80, 0x01, 0x02] : List Byte).drop 5)) :=
  ⟨by decide, by decide,
    C3_parseInteger_consumes [0x80, 0x80, 0x80, 0x80, 0x80, 0x01, 0x02] (by decide)⟩

/-- C4: when the raw payload is `0xFF 0x01` followed by a body on which `parse` succeeds
with value `val` and remainder `r`, `Decode` succeeds and returns `val`; it stores `r` as
the signature, and the algorithm tag is `hmac_sha1` exactly when `r` has 20 bytes,
`hmac_sha256` exactly when it has 32, and `unknown` for every other length, among them 0,
16 and 40. -/
theorem C4_Decode_classifies_remainder (v : Viewstate) (body : List Byte) (val : Value)
    (r : List Byte) (hraw : v.raw = 0xFF :: 0x01 :: body) (hp : parse body = .ok val r) :
    ∃ v' : Viewstate, v.Decode = .ret val none v' ∧ v'.signature = r ∧ v'.raw = v.raw ∧
      (v'.mac = "hmac_sha1" ↔ r.length = 20) ∧
      (v'.mac = "hmac_sha256" ↔ r.length = 32) ∧
      (v'.mac = "unknown" ↔ r.length ≠ 20 ∧ r.length ≠ 32) ∧
      (r.length = 0 ∨ r.length = 16 ∨ r.length = 40 → v'.mac = "unknown") := by
  have hlen : ¬ v.raw.length < 2 := by rw [hraw]; simp
  have htake : v.raw.take 2 = [0xff, 0x01] := by rw [hraw]; rfl
  have hdrop : v.raw.drop 2 = body := by rw [hraw]; rfl
  unfold Viewstate.Decode Viewstate.DecodeWith
  simp only [hlen, htake, hdrop, hp, if_false, ne_eq, not_true_eq_false]
  by_cases h20 : r.length = 20
  · refine ⟨{ v with mac := "hmac_sha1", signature := r }, by rw [if_pos h20], rfl, rfl,
      ?_, ?_, ?_, ?_⟩
    · simp [h20]
    · simp [h20]
    · simp [h20]
    · intro h; omega
  · by_cases h32 : r.length = 32
    · refine ⟨{ v with mac := "hmac_sha256", signature := r },
        by rw [if_neg h20, if_pos h32], rfl, rfl, ?_, ?_, ?_, ?_⟩
      · simp [h32]
      · simp [h32]
      · simp [h32]
      · intro h; omega
    · refine ⟨{ v with mac := "unknown", signature := r },
        by rw [if_neg h20, if_neg h32], rfl, rfl, ?_, ?_, ?_, ?_⟩
      · simp [h20]
      · simp [h32]
      · simp [h20, h32]
      · intro _; rfl

/-- Witness of C4: preamble, the marker `0x64` and twenty trailing bytes, which are
classified as `hmac_sha1`. -/
theorem C4_Decode_classifies_remainder_witness :
    Viewstate.Decode ⟨0xFF :: 0x01 :: 0x64 :: List.replicate 20 7, .nil, "", []⟩
      = .ret .nil none
          ⟨0xFF :: 0x01 :: 0x64 :: List.replicate 20 7, .nil, "hmac_sha1", List.replicate 20 7⟩ ∧
    ∃ v' : Viewstate,
      Viewstate.Decode ⟨0xFF :: 0x01 :: 0x64 :: List.replicate 20 7, .nil, "", []⟩
        = .ret .nil none v' ∧ v'.signature = List.replicate 20 7 ∧
      v'.raw = 0xFF :: 0x01 :: 0x64 :: List.replicate 20 7 ∧
      (v'.mac = "hmac_sha1" ↔ (List.replicate 20 (7 : Byte)).length = 20) ∧
      (v'.mac = "hmac_sha256" ↔ (List.replicate 20 (7 : Byte)).length = 32) ∧
      (v'.mac = "unknown" ↔ (List.replicate 20 (7 : Byte)).length ≠ 20 ∧
        (List.replicate 20 (7 : Byte)).length ≠ 32) ∧
      ((List.replicate 20 (7 : Byte)).length = 0 ∨ (List.replicate 20 (7 : Byte)).length = 16 ∨
        (List.replicate 20 (7 : Byte)).length = 40 → v'.mac = "unknown") :=
  ⟨rfl, C4_Decode_classifies_remainder
    ⟨0xFF :: 0x01 :: 0x64 :: List.replicate 20 7, .nil, "", []⟩
    (0x64 :: List.replicate 20 7) .nil (List.replicate 20 7) rfl rfl⟩

/-- C5: `Decode` fails with the too-short error when the raw payload has fewer than 2
bytes, and with the bad-preamble error when it has at least 2 bytes and the first two are
not `0xFF, 0x01`; in both cases the outcome is the same whatever decoder stands in the place
of `parse`, so `parse` is not run. -/
theorem C5_Decode_rejects_before_parsing (v : Viewstate) :
    (v.raw.length < 2 →
      v.Decode = .ret .nil (some .tooShort) v ∧
      ∀ p, v.DecodeWith p = .ret .nil (some .tooShort) v) ∧
    (2 ≤ v.raw.length → v.raw.take 2 ≠ [0xFF, 0x01] →
      v.Decode = .ret .nil (some .badPreamble) v ∧
      ∀ p, v.DecodeWith p = .ret .nil (some .badPreamble) v) := by
  constructor
  · intro h
    have hall : ∀ p, v.DecodeWith p = .ret .nil (some .tooShort) v := by
      intro p
      unfold Viewstate.DecodeWith
      rw [if_pos h]
    exact ⟨hall parse, hall⟩
  · intro h2 hne
    have hall : ∀ p, v.DecodeWith p = .ret .nil (some .badPreamble) v := by
      intro p
      unfold Viewstate.DecodeWith
      rw [if_neg (by omega), if_pos hne]
    exact ⟨hall parse, hall⟩

/-- Witness of C5: the one-byte payload `[0xFF]` is too short, and `[0xFF, 0x02, 0x64, 0x64]`
has a bad preamble. -/
theorem C5_Decode_rejects_before_parsing_witness :
    (Viewstate.Decode ⟨[0xFF], .nil, "", []⟩
        = .ret .nil (some .tooShort) ⟨[0xFF], .nil, "", []⟩ ∧
      ∀ p, Viewstate.DecodeWith p ⟨[0xFF], .nil, "", []⟩
        = .ret .nil (some .tooShort) ⟨[0xFF], .nil, "", []⟩) ∧
    (Viewstate.Decode ⟨[0xFF, 0x02, 0x64, 0x64], .nil, "", []⟩
        = .ret .nil (some .badPreamble) ⟨[0xFF, 0x02, 0x64, 0x64], .nil, "", []⟩ ∧
      ∀ p, Viewstate.DecodeWith p ⟨[0xFF, 0x02, 0x64, 0x64], .nil, "", []⟩
        = .ret .nil (some .badPreamble) ⟨[0xFF, 0x02, 0x64, 0x64], .nil, "", []⟩) :=
  ⟨(C5_Decode_rejects_before_parsing ⟨[0xFF], .nil, "", []⟩).1 (by decide),
   (C5_Decode_rejects_before_parsing ⟨[0xFF, 0x02, 0x64, 0x64], .nil, "", []⟩).2
     (by decide) (by decide)⟩

/-- C6: on a body of at least 2 bytes whose first byte is a payload-free marker, `parse`
consumes exactly the marker byte and returns `nil` for `0x01` and `0x64`, the empty string
for `0x65`, the integer 0 for `0x66`, `true` for `0x67` and `false` for `0x68`. -/
theorem C6_payload_free_markers (b : Byte) (rest : List Byte) :
    parse (0x01 :: b :: rest) = .ok .nil (b :: rest) ∧
    parse (0x64 :: b :: rest) = .ok .nil (b :: rest) ∧
    parse (0x65 :: b :: rest) = .ok (.str []) (b :: rest) ∧
    parse (0x66 :: b :: rest) = .ok (.int 0) (b :: rest) ∧
    parse (0x67 :: b :: rest) = .ok (.bool true) (b :: rest) ∧
    parse (0x68 :: b :: rest) = .ok (.bool false) (b :: rest) :=
  ⟨rfl, rfl, rfl, rfl, rfl, rfl⟩

/-- C7: on a cursor made of a varint that decodes to `n`, then `n` bytes of content, then
`rest`, `parseString` returns the content unchanged and `rest` as the remainder, and so does
`parse` behind each of the markers `0x05`, `0x1E`, `0x2A`, `0x29`; `parse` of
`[0x1E, 0x05, 'h', 'e', 'l', 'l', 'o']` yields "hello" with an empty remainder. -/
theorem C7_parseString_content (c content rest : List Byte) (n : Int)
    (hn : parseInteger c = .ok n (content ++ rest)) (hlen : (content.length : Int) = n) :
    parseString c = .ok content rest ∧
    parse (0x05 :: c) = .ok (.str content) rest ∧
    parse (0x1E :: c) = .ok (.str content) rest ∧
    parse (0x2A :: c) = .ok (.str content) rest ∧
    parse (0x29 :: c) = .ok (.str content) rest ∧
    parse [0x1E, 0x05, 104, 101, 108, 108, 111] = .ok (.str [104, 101, 108, 108, 111]) [] := by
  have hs : parseString c = .ok content rest := by
    unfold parseString
    rw [hn]
    simp only [Res.bind]
    subst hlen
    simp
  obtain ⟨b, c', rfl⟩ : ∃ b c', c = b :: c' := by
    cases c with
    | nil =>
      have hle := (parseInteger_advances []).length_le hn
      simp at hle
    | cons b c' => exact ⟨b, c', rfl⟩
  refine ⟨hs, ?_, ?_, ?_, ?_, rfl⟩
  all_goals
    rw [parse_cons_cons]
    show Res.map Value.str (parseString (b :: c')) = _
    rw [hs]
    rfl

/-- Witness of C7: the length byte `0x02`, the content `[0x41, 0x42]` and the rest `[0x09]`. -/
theorem C7_parseString_content_witness :
    parseString [0x02, 0x41, 0x42, 0x09] = .ok [0x41, 0x42] [0x09] ∧
    parse [0x05, 0x02, 0x41, 0x42, 0x09] = .ok (.str [0x41, 0x42]) [0x09] ∧
    parse [0x1E, 0x02, 0x41, 0x42, 0x09] = .ok (.str [0x41, 0x42]) [0x09] ∧
    parse [0x2A, 0x02, 0x41, 0x42, 0x09] = .ok (.str [0x41, 0x42]) [0x09] ∧
    parse [0x29, 0x02, 0x41, 0x42, 0x09] = .ok (.str [0x41, 0x42]) [0x09] ∧
    parse [0x1E, 0x05, 104, 101, 108, 108, 111] = .ok (.str [104, 101, 108, 108, 111]) [] :=
  C7_parseString_content [0x02, 0x41, 0x42, 0x09] [0x41, 0x42] [0x09] 2 (by decide) (by decide)

/-- C8: on a body of at least 2 bytes whose first byte is not a marker of the dispatch
table, `parse` fails with the unknown-marker error and returns neither a value nor a
remainder; `0x99` is such a byte. -/
theorem C8_unknown_marker (marker b : Byte) (rest : List Byte)
    (h : marker.val ∉ [0x01, 0x02, 0x05, 0x06, 0x09, 0x0A, 0x0B, 0x0F, 0x10, 0x14, 0x15, 0x16,
      0x18, 0x1B, 0x1E, 0x1F, 0x28, 0x29, 0x2A, 0x2B, 0x32, 0x3C, 0x64, 0x65, 0x66, 0x67, 0x68]) :
    parse (marker :: b :: rest) = .err .nil [] .unknownMarker ∧
    parse (0x99 :: b :: rest) = .err .nil [] .unknownMarker := by
  refine ⟨?_, rfl⟩
  rw [parse_cons_cons]
  unfold parseSwitch
  split <;> first | rfl | simp_all

/-- Witness of C8: the marker `0x00`. -/
theorem C8_unknown_marker_witness :
    parse [0x00, 0x64, 0x64] = .err .nil [] .unknownMarker ∧
    parse [0x99, 0x64, 0x64] = .err .nil [] .unknownMarker :=
  C8_unknown_marker 0x00 0x64 [0x64] (by decide)

/-- C9: `parse` fails with the too-short error on every body of fewer than 2 bytes, whatever
its content, in particular on the one-byte body `[0x64]` that holds a payload-free marker;
and so the pair `[0x0F, 0x64, 0x64]`, whose second nested value is a payload-free marker in
the last byte of the cursor, fails to decode. -/
theorem C9_parse_needs_two_bytes (body : List Byte) (h : body.length < 2) :
    parse body = .err .nil [] .tooShort ∧
    parse [0x64] = .err .nil [] .tooShort ∧
    parse [0x0F, 0x64, 0x64] = .err .nil [] .tooShort := by
  refine ⟨?_, rfl, rfl⟩
  match body, h with
  | [], _ => rfl
  | [_], _ => rfl
  | _ :: _ :: _, h =>
    exfalso
    simp only [List.length_cons] at h
    omega

/-- Witness of C9: the one-byte body `[0x67]`. -/
theorem C9_parse_needs_two_bytes_witness :
    parse [0x67] = .err .nil [] .tooShort ∧
    parse [0x64] = .err .nil [] .tooShort ∧
    parse [0x0F, 0x64, 0x64] = .err .nil [] .tooShort :=
  C9_parse_needs_two_bytes [0x67] (by decide)

/-! ## `parseSparseArray` -/

theorem parseSparseArrayLoop_entries (p : List Byte → Res Value) :
    ∀ (k : Nat) (lst : List Value) (body : List Byte) (es : List (Int × Value))
      (r : List Byte), sparseEntries p k body = some (es, r) →
      (∀ e ∈ es, 0 ≤ e.1 ∧ e.1.toNat < lst.length) →
      parseSparseArrayLoop p k lst body
        = .ok (es.foldl (fun l e => l.set e.1.toNat e.2) lst) r := by
  intro k
  induction k with
  | zero =>
    intro lst body es r h _
    simp only [sparseEntries, Option.some.injEq, Prod.mk.injEq] at h
    obtain ⟨rfl, rfl⟩ := h
    rfl
  | succ k ih =>
    intro lst body es r h hidx
    unfold sparseEntries at h
    unfold parseSparseArrayLoop
    cases h1 : parseInteger body with
    | ok idx b1 =>
      rw [h1] at h
      simp only at h
      cases h2 : p b1 with
      | ok val b2 =>
        rw [h2] at h
        simp only at h
        cases h3 : sparseEntries p k b2 with
        | none => rw [h3] at h; simp at h
        | some er =>
          obtain ⟨es', r'⟩ := er
          rw [h3] at h
          simp only [Option.some.injEq, Prod.mk.injEq] at h
          obtain ⟨rfl, rfl⟩ := h
          have h0 : 0 ≤ idx ∧ idx.toNat < lst.length := hidx (idx, val) (by simp)
          simp only [Res.bind, h2]
          rw [if_pos h0]
          rw [ih (lst.set idx.toNat val) b2 es' r' h3
            (fun e he => by
              have := hidx e (by simp [he])
              simpa using this)]
          rfl
      | err _ _ _ => rw [h2] at h; simp at h
      | panic => rw [h2] at h; simp at h
      | diverge => rw [h2] at h; simp at h
    | err _ _ _ => rw [h1] at h; simp at h
    | panic => rw [h1] at h; simp at h
    | diverge => rw [h1] at h; simp at h

theorem sparseEntries_length (p : List Byte → Res Value) :
    ∀ (k : Nat) (body : List Byte) (es : List (Int × Value)) (r : List Byte),
      sparseEntries p k body = some (es, r) → es.length = k := by
  intro k
  induction k with
  | zero =>
    intro body es r h
    simp only [sparseEntries, Option.some.injEq, Prod.mk.injEq] at h
    rw [← h.1]; rfl
  | succ k ih =>
    intro body es r h
    unfold sparseEntries at h
    cases h1 : parseInteger body with
    | ok idx b1 =>
      rw [h1] at h
      simp only at h
      cases h2 : p b1 with
      | ok val b2 =>
        rw [h2] at h
        simp only at h
        cases h3 : sparseEntries p k b2 with
        | none => rw [h3] at h; simp at h
        | some er =>
          obtain ⟨es', r'⟩ := er
          rw [h3] at h
          simp only [Option.some.injEq, Prod.mk.injEq] at h
          rw [← h.1, List.length_cons, ih b2 es' r' h3]
      | err _ _ _ => rw [h2] at h; simp at h
      | panic => rw [h2] at h; simp at h
      | diverge => rw [h2] at h; simp at h
    | err _ _ _ => rw [h1] at h; simp at h
    | panic => rw [h1] at h; simp at h
    | diverge => rw [h1] at h; simp at h

/-- Assigning the entries in order: the length is kept, and every position holds the value
of the last entry with that index, or what it held before when there is none. -/
theorem foldl_set_last : ∀ (es : List (Int × Value)) (lst : List Value),
    (∀ e ∈ es, 0 ≤ e.1 ∧ e.1.toNat < lst.length) →
    (es.foldl (fun l e => l.set e.1.toNat e.2) lst).length = lst.length ∧
    ∀ i, i < lst.length →
      (∃ j, ∃ hj : j < es.length, (es.get ⟨j, hj⟩).1 = (i : Int) ∧
          (∀ j2, ∀ hj2 : j2 < es.length, j < j2 → (es.get ⟨j2, hj2⟩).1 ≠ (i : Int)) ∧
          (es.foldl (fun l e => l.set e.1.toNat e.2) lst)[i]? = some (es.get ⟨j, hj⟩).2) ∨
      ((∀ e ∈ es, e.1 ≠ (i : Int)) ∧
          (es.foldl (fun l e => l.set e.1.toNat e.2) lst)[i]? = lst[i]?) := by
  intro es
  induction es with
  | nil =>
    intro lst _
    exact ⟨rfl, fun i _ => Or.inr ⟨by simp, rfl⟩⟩
  | cons e es ih =>
    intro lst hidx
    have he := hidx e (by simp)
    have hrest : ∀ e2 ∈ es, 0 ≤ e2.1 ∧ e2.1.toNat < (lst.set e.1.toNat e.2).length := by
      intro e2 h2
      have := hidx e2 (by simp [h2])
      simpa using this
    obtain ⟨hlen, hpos⟩ := ih (lst.set e.1.toNat e.2) hrest
    rw [List.foldl_cons]
    refine ⟨by rw [hlen, List.length_set], ?_⟩
    intro i hi
    rcases hpos i (by simpa using hi) with ⟨j, hj, hji, hlast, hval⟩ | ⟨hnone, hval⟩
    · refine Or.inl ⟨j + 1, by simp; omega, by simpa using hji, ?_, by simpa using hval⟩
      intro j2 hj2 hlt
      obtain ⟨j3, rfl⟩ : ∃ j3, j2 = j3 + 1 := ⟨j2 - 1, by omega⟩
      have hj3 : j3 < es.length := by simpa using hj2
      have := hlast j3 hj3 (by omega)
      simpa using this
    · by_cases hei : e.1 = (i : Int)
      · refine Or.inl ⟨0, by simp, by simpa using hei, ?_, ?_⟩
        · intro j2 hj2 hlt
          obtain ⟨j3, rfl⟩ : ∃ j3, j2 = j3 + 1 := ⟨j2 - 1, by omega⟩
          have hj3 : j3 < es.length := by simpa using hj2
          have := hnone (es.get ⟨j3, hj3⟩) (List.get_mem _ _ _)
          simpa using this
        · rw [hval]
          have hti : e.1.toNat = i := by omega
          rw [hti, List.getElem?_set_self hi]
          rfl
      · refine Or.inr ⟨?_, ?_⟩
        · intro e2 h2
          rcases List.mem_cons.mp h2 with rfl | h2
          · exact hei
          · exact hnone e2 h2
        · rw [hval]
          have hti : e.1.toNat ≠ i := by omega
          rw [List.getElem?_set_ne hti]

/-- C10: on a sparse-array encoding (type tag, varint length `L`, varint entry count `n`,
then `n` entries of varint index and nested value) in which every index lies in `[0, L)` and
every nested value decodes, `parseSparseArray` returns a sequence of exactly `L` elements
in which position `i` holds the value of the last entry whose index is `i`, and `nil` when
no entry has index `i`. -/
theorem C10_parseSparseArray_positions (c c1 c2 c3 r : List Byte) (typ : Value) (L n : Int)
    (es : List (Int × Value))
    (htyp : parse c = .ok typ c1) (hL : parseInteger c1 = .ok L c2)
    (hn : parseInteger c2 = .ok n c3)
    (hes : sparseEntries parse n.toNat c3 = some (es, r))
    (hidx : ∀ e ∈ es, 0 ≤ e.1 ∧ e.1 < L) :
    ∃ lst : List Value, parseSparseArray parse c = .ok lst r ∧
      parse (0x3C :: c) = .ok (.slice lst) r ∧
      (lst.length : Int) = L ∧ (es.length : Int) = n ∧
      ∀ i, i < lst.length →
        (∃ j, ∃ hj : j < es.length, (es.get ⟨j, hj⟩).1 = (i : Int) ∧
            (∀ j2, ∀ hj2 : j2 < es.length, j < j2 → (es.get ⟨j2, hj2⟩).1 ≠ (i : Int)) ∧
            lst[i]? = some (es.get ⟨j, hj⟩).2) ∨
        ((∀ e ∈ es, e.1 ≠ (i : Int)) ∧ lst[i]? = some .nil) := by
  have hL0 : 0 ≤ L := parseInteger_nonneg hL
  have hn0 : 0 ≤ n := parseInteger_nonneg hn
  have hidx2 : ∀ e ∈ es, 0 ≤ e.1 ∧ e.1.toNat < (List.replicate L.toNat Value.nil).length := by
    intro e he
    have := hidx e he
    rw [List.length_replicate]
    omega
  have hloop := parseSparseArrayLoop_entries parse n.toNat
    (List.replicate L.toNat Value.nil) c3 es r hes hidx2
  obtain ⟨hlen, hpos⟩ := foldl_set_last es (List.replicate L.toNat Value.nil) hidx2
  have hsa : parseSparseArray parse c
      = .ok (es.foldl (fun l e => l.set e.1.toNat e.2) (List.replicate L.toNat Value.nil)) r := by
    unfold parseSparseArray
    rw [htyp]
    simp only [Res.bind]
    rw [hL]
    simp only
    rw [hn]
    simp only
    rw [if_neg (by omega), hloop]
  obtain ⟨b, c', rfl⟩ : ∃ b c', c = b :: c' := by
    cases c with
    | nil =>
      have hle := (parse_advances []).length_le htyp
      simp at hle
    | cons b c' => exact ⟨b, c', rfl⟩
  refine ⟨_, hsa, ?_, ?_, ?_, ?_⟩
  · rw [parse_cons_cons]
    show Res.map Value.slice (parseSparseArray parse (b :: c')) = _
    rw [hsa]
    rfl
  · rw [hlen, List.length_replicate]
    omega
  · rw [sparseEntries_length parse _ _ _ _ hes]
    omega
  · intro i hi
    rw [hlen] at hi
    rcases hpos i hi with hl | ⟨hnone, hval⟩
    · exact Or.inl hl
    · refine Or.inr ⟨hnone, ?_⟩
      rw [hval]
      rw [List.length_replicate] at hi
      exact List.getElem?_replicate_of_lt hi

/-- Witness of C10: type tag `0x64`, length 5, one entry, index 3, value the integer 7:
the result has 5 elements, positions 0, 1, 2, 4 are `nil` and position 3 holds 7. -/
theorem C10_parseSparseArray_positions_witness :
    parse [0x3C, 0x64, 0x05, 0x01, 0x03, 0x02, 0x07]
      = .ok (.slice [.nil, .nil, .nil, .int 7, .nil]) [] ∧
    ∃ lst : List Value, parseSparseArray parse [0x64, 0x05, 0x01, 0x03, 0x02, 0x07] = .ok lst [] ∧
      parse (0x3C :: [0x64, 0x05, 0x01, 0x03, 0x02, 0x07]) = .ok (.slice lst) [] ∧
      (lst.length : Int) = 5 ∧ (([((3 : Int), Value.int 7)] : List (Int × Value)).length : Int) = 1 ∧
      ∀ i, i < lst.length →
        (∃ j, ∃ hj : j < [((3 : Int), Value.int 7)].length,
            ([((3 : Int), Value.int 7)].get ⟨j, hj⟩).1 = (i : Int) ∧
            (∀ j2, ∀ hj2 : j2 < [((3 : Int), Value.int 7)].length, j < j2 →
              ([((3 : Int), Value.int 7)].get ⟨j2, hj2⟩).1 ≠ (i : Int)) ∧
            lst[i]? = some ([((3 : Int), Value.int 7)].get ⟨j, hj⟩).2) ∨
        ((∀ e ∈ [((3 : Int), Value.int 7)], e.1 ≠ (i : Int)) ∧ lst[i]? = some .nil) :=
  ⟨rfl, C10_parseSparseArray_positions [0x64, 0x05, 0x01, 0x03, 0x02, 0x07]
    [0x05, 0x01, 0x03, 0x02, 0x07] [0x01, 0x03, 0x02, 0x07] [0x03, 0x02, 0x07] []
    .nil 5 1 [(3, .int 7)] rfl (by decide) (by decide) rfl (by decide)⟩

/-! ## Unchecked bounds -/

theorem sparseEntries_succ (p : List Byte → Res Value) (k : Nat) (body : List Byte)
    (es : List (Int × Value)) (r : List Byte)
    (h : sparseEntries p (k + 1) body = some (es, r)) :
    ∃ idx b1 val b2 es2, parseInteger body = .ok idx b1 ∧ p b1 = .ok val b2 ∧
      sparseEntries p k b2 = some (es2, r) ∧ es = (idx, val) :: es2 := by
  unfold sparseEntries at h
  cases h1 : parseInteger body with
  | ok idx b1 =>
    rw [h1] at h
    simp only at h
    cases h2 : p b1 with
    | ok val b2 =>
      rw [h2] at h
      simp only at h
      cases h3 : sparseEntries p k b2 with
      | none => rw [h3] at h; simp at h
      | some er =>
        obtain ⟨es2, r2⟩ := er
        rw [h3] at h
        simp only [Option.some.injEq, Prod.mk.injEq] at h
        obtain ⟨rfl, rfl⟩ := h
        exact ⟨idx, b1, val, b2, es2, rfl, h2, h3, rfl⟩
    | err _ _ _ => rw [h2] at h; simp at h
    | panic => rw [h2] at h; simp at h
    | diverge => rw [h2] at h; simp at h
  | err _ _ _ => rw [h1] at h; simp at h
  | panic => rw [h1] at h; simp at h
  | diverge => rw [h1] at h; simp at h

/-- The loop of `parseSparseArray` after `j` entries with indices in range, at an entry whose
index is out of range and whose value decodes: the assignment `lst[idx] = val` panics. -/
theorem parseSparseArrayLoop_panic (p : List Byte → Res Value) :
    ∀ (j k : Nat) (lst : List Value) (body : List Byte) (es : List (Int × Value))
      (b0 b1 b2 : List Byte) (idx : Int) (val : Value),
      sparseEntries p j body = some (es, b0) →
      (∀ e ∈ es, 0 ≤ e.1 ∧ e.1.toNat < lst.length) →
      parseInteger b0 = .ok idx b1 → p b1 = .ok val b2 →
      ¬ (0 ≤ idx ∧ idx.toNat < lst.length) →
      parseSparseArrayLoop p (j + (k + 1)) lst body = .panic := by
  intro j
  induction j with
  | zero =>
    intro k lst body es b0 b1 b2 idx val hes _ hidx hval hout
    simp only [sparseEntries, Option.some.injEq, Prod.mk.injEq] at hes
    obtain ⟨_, rfl⟩ := hes
    rw [Nat.zero_add]
    unfold parseSparseArrayLoop
    rw [hidx]
    simp only [Res.bind, hval]
    rw [if_neg hout]
  | succ j ih =>
    intro k lst body es b0 b1 b2 idx val hes hin hidx hval hout
    obtain ⟨i0, c1, v0, c2, es2, h1, h2, h3, rfl⟩ := sparseEntries_succ p j body es b0 hes
    have h0 : 0 ≤ i0 ∧ i0.toNat < lst.length := hin (i0, v0) (by simp)
    have hk : j + 1 + (k + 1) = (j + (k + 1)) + 1 := by omega
    rw [hk]
    unfold parseSparseArrayLoop
    rw [h1]
    simp only [Res.bind, h2]
    rw [if_pos h0]
    exact ih k (lst.set i0.toNat v0) c2 es2 b0 b1 b2 idx val h3
      (fun e he => by
        have := hin e (by simp [he])
        simpa using this)
      hidx hval (by simpa using hout)

/-- C11: on a sparse-array encoding whose first `j` entries have indices below the declared
length `L` and whose next entry has an index `idx` with `L ≤ idx` (and a value that
decodes), `parseSparseArray` panics at the assignment `lst[idx] = val`; no error is
returned.  So it is with length 5, one entry, index 5. -/
theorem C11_parseSparseArray_out_of_range_panics (c c1 c2 c3 c4 c5 c6 : List Byte)
    (typ val : Value) (L n idx : Int) (j : Nat) (es : List (Int × Value))
    (htyp : parse c = .ok typ c1) (hL : parseInteger c1 = .ok L c2)
    (hn : parseInteger c2 = .ok n c3) (hj : j < n.toNat)
    (hes : sparseEntries parse j c3 = some (es, c4))
    (hin : ∀ e ∈ es, 0 ≤ e.1 ∧ e.1 < L)
    (hidx : parseInteger c4 = .ok idx c5) (hval : parse c5 = .ok val c6) (hout : L ≤ idx) :
    parseSparseArray parse c = .panic ∧ parse (0x3C :: c) = .panic ∧
    parse [0x3C, 0x64, 0x05, 0x01, 0x05, 0x02, 0x07] = .panic := by
  have hL0 : 0 ≤ L := parseInteger_nonneg hL
  have hin2 : ∀ e ∈ es, 0 ≤ e.1 ∧ e.1.toNat < (List.replicate L.toNat Value.nil).length := by
    intro e he
    have := hin e he
    rw [List.length_replicate]
    omega
  have hout2 : ¬ (0 ≤ idx ∧ idx.toNat < (List.replicate L.toNat Value.nil).length) := by
    rw [List.length_replicate]
    omega
  obtain ⟨k, hk⟩ : ∃ k, n.toNat = j + (k + 1) := ⟨n.toNat - j - 1, by omega⟩
  have hsa : parseSparseArray parse c = .panic := by
    unfold parseSparseArray
    rw [htyp]
    simp only [Res.bind]
    rw [hL]
    simp only
    rw [hn]
    simp only
    rw [if_neg (by omega), hk]
    exact parseSparseArrayLoop_panic parse j k _ c3 es c4 c5 c6 idx val hes hin2 hidx hval hout2
  obtain ⟨b, c', rfl⟩ : ∃ b c', c = b :: c' := by
    cases c with
    | nil =>
      have hle := (parse_advances []).length_le htyp
      simp at hle
    | cons b c' => exact ⟨b, c', rfl⟩
  refine ⟨hsa, ?_, rfl⟩
  rw [parse_cons_cons]
  show Res.map Value.slice (parseSparseArray parse (b :: c')) = _
  rw [hsa]
  rfl

/-- Witness of C11: type tag `0x64`, length 5, two entries: index 3 with the integer 7, then
index 9 with the integer 8. -/
theorem C11_parseSparseArray_out_of_range_panics_witness :
    parseSparseArray parse [0x64, 0x05, 0x02, 0x03, 0x02, 0x07, 0x09, 0x02, 0x08] = .panic ∧
    parse (0x3C :: [0x64, 0x05, 0x02, 0x03, 0x02, 0x07, 0x09, 0x02, 0x08]) = .panic ∧
    parse [0x3C, 0x64, 0x05, 0x01, 0x05, 0x02, 0x07] = .panic :=
  C11_parseSparseArray_out_of_range_panics
    [0x64, 0x05, 0x02, 0x03, 0x02, 0x07, 0x09, 0x02, 0x08]
    [0x05, 0x02, 0x03, 0x02, 0x07, 0x09, 0x02, 0x08]
    [0x02, 0x03, 0x02, 0x07, 0x09, 0x02, 0x08]
    [0x03, 0x02, 0x07, 0x09, 0x02, 0x08]
    [0x09, 0x02, 0x08] [0x02, 0x08] []
    .nil (.int 8) 5 2 9 1 [(3, .int 7)]
    rfl (by decide) (by decide) (by decide) rfl (by decide) (by decide) rfl (by decide)

theorem parseIntegerLoop_panic : ∀ (cur : List Byte) (n i : Nat), i + cur.length < 5 →
    (∀ b ∈ cur, b.val &&& 0x80 ≠ 0) → parseIntegerLoop cur n (7 * i) = .panic := by
  intro cur
  induction cur with
  | nil =>
    intro n i hlen _
    unfold parseIntegerLoop
    have hb : 7 * i < 32 := by simp at hlen; omega
    simp [hb]
  | cons tmp cur' ih =>
    intro n i hlen hall
    unfold parseIntegerLoop
    have hb : 7 * i < 32 := by simp at hlen; omega
    have hc : ¬ tmp.val &&& 0x80 = 0 := hall tmp (by simp)
    simp only [hb, hc, if_true, if_false]
    have h7 : 7 * i + 7 = 7 * (i + 1) := by ring
    rw [h7]
    exact ih _ (i + 1) (by simp at hlen; omega) (fun b hb2 => hall b (by simp [hb2]))

/-- C14: on a cursor that is empty, or has fewer than 5 bytes all with the continuation bit
`0x80` set, `parseInteger` panics at the read `body[i]` past the end; it returns neither an
error nor an integer. -/
theorem C14_parseInteger_truncated_panics (body : List Byte) (hlen : body.length < 5)
    (hall : ∀ b ∈ body, b.val &&& 0x80 ≠ 0) :
    parseInteger body = .panic ∧ parseInteger [] = .panic ∧
    parseInteger [0x80, 0x80] = .panic ∧
    ∀ (v : Int) (rest : List Byte) (e : Err), parseInteger body ≠ .err v rest e :=
  ⟨parseIntegerLoop_panic body 0 0 (by omega) hall, by decide, by decide,
    fun v rest e => parseInteger_ne_err body v rest e⟩

/-- Witness of C14: the four bytes `[0x81, 0x82, 0x83, 0x84]`. -/
theorem C14_parseInteger_truncated_panics_witness :
    parseInteger [0x81, 0x82, 0x83, 0x84] = .panic ∧ parseInteger [] = .panic ∧
    parseInteger [0x80, 0x80] = .panic ∧
    ∀ (v : Int) (rest : List Byte) (e : Err),
      parseInteger [0x81, 0x82, 0x83, 0x84] ≠ .err v rest e :=
  C14_parseInteger_truncated_panics [0x81, 0x82, 0x83, 0x84] (by decide)
    (by
      intro b hb
      simp only [List.mem_cons, List.mem_singleton, List.not_mem_nil, or_false] at hb
      rcases hb with rfl | rfl | rfl | rfl <;> decide)

/-- C15: on a cursor whose leading varint decodes to a length `n` greater than the number of
bytes that remain after it, `parseString` panics at the slice `body[:n]` / `body[n:]`, and
so does `parse` behind the text markers; no error and no text is returned. -/
theorem C15_parseString_truncated_panics (c c1 : List Byte) (n : Int)
    (hn : parseInteger c = .ok n c1) (hlt : (c1.length : Int) < n) :
    parseString c = .panic ∧
    parse (0x05 :: c) = .panic ∧ parse (0x1E :: c) = .panic ∧
    parse (0x2A :: c) = .panic ∧ parse (0x29 :: c) = .panic ∧
    parse [0x1E, 0x05, 104, 105] = .panic := by
  have hs : parseString c = .panic := by
    unfold parseString
    rw [hn]
    simp only [Res.bind]
    rw [if_neg (by omega)]
  obtain ⟨b, c', rfl⟩ : ∃ b c', c = b :: c' := by
    cases c with
    | nil =>
      have hle := (parseInteger_advances []).length_le hn
      simp at hle
    | cons b c' => exact ⟨b, c', rfl⟩
  refine ⟨hs, ?_, ?_, ?_, ?_, rfl⟩
  all_goals
    rw [parse_cons_cons]
    show Res.map Value.str (parseString (b :: c')) = _
    rw [hs]
    rfl

/-- Witness of C15: the length byte `0x03` followed by only two bytes. -/
theorem C15_parseString_truncated_panics_witness :
    parseString [0x03, 0x41, 0x42] = .panic ∧
    parse [0x05, 0x03, 0x41, 0x42] = .panic ∧ parse [0x1E, 0x03, 0x41, 0x42] = .panic ∧
    parse [0x2A, 0x03, 0x41, 0x42] = .panic ∧ parse [0x29, 0x03, 0x41, 0x42] = .panic ∧
    parse [0x1E, 0x05, 104, 105] = .panic :=
  C15_parseString_truncated_panics [0x03, 0x41, 0x42] [0x41, 0x42] 3 (by decide) (by decide)

/-! ## Pair, Triplet and the sequences -/

/-- C16: if `parse c` gives `(v1, r1)` and `parse r1` gives `(v2, r2)`, the Pair decoder on
`c` returns the ordered pair `(v1, v2)` with remainder `r2`, and if `parse r2` gives
`(v3, r3)` the Triplet decoder on `c` returns `(v1, v2, v3)` with remainder `r3`; when one
of the nested calls fails with an error, the Pair or Triplet decoder fails with that error. -/
theorem C16_pair_triplet_in_order (c : List Byte) :
    (∀ v1 r1 v2 r2, parse c = .ok v1 r1 → parse r1 = .ok v2 r2 →
      parsePair parse c = .ok (.pair v1 v2) r2 ∧
      ∀ v3 r3, parse r2 = .ok v3 r3 →
        parseTriplet parse c = .ok (.triplet v1 v2 v3) r3) ∧
    (∀ x y e, parse c = .err x y e →
      parsePair parse c = .err .nil [] e ∧ parseTriplet parse c = .err .nil [] e) ∧
    (∀ v1 r1 x y e, parse c = .ok v1 r1 → parse r1 = .err x y e →
      parsePair parse c = .err .nil [] e ∧ parseTriplet parse c = .err .nil [] e) ∧
    (∀ v1 r1 v2 r2 x y e, parse c = .ok v1 r1 → parse r1 = .ok v2 r2 →
      parse r2 = .err x y e → parseTriplet parse c = .err .nil [] e) := by
  refine ⟨?_, ?_, ?_, ?_⟩
  · intro v1 r1 v2 r2 h1 h2
    refine ⟨by simp [parsePair, Res.bind, h1, h2], ?_⟩
    intro v3 r3 h3
    simp [parseTriplet, Res.bind, h1, h2, h3]
  · intro x y e h1
    exact ⟨by simp [parsePair, Res.bind, h1], by simp [parseTriplet, Res.bind, h1]⟩
  · intro v1 r1 x y e h1 h2
    exact ⟨by simp [parsePair, Res.bind, h1, h2], by simp [parseTriplet, Res.bind, h1, h2]⟩
  · intro v1 r1 v2 r2 x y e h1 h2 h3
    simp [parseTriplet, Res.bind, h1, h2, h3]

/-- Witness of C16: the cursor `[0x02, 0x05, 0x67, 0x02, 0x09, 0x00]` holds the integer 5,
`true` and the integer 9. -/
theorem C16_pair_triplet_in_order_witness :
    parsePair parse [0x02, 0x05, 0x67, 0x02, 0x09, 0x00]
      = .ok (.pair (.int 5) (.bool true)) [0x02, 0x09, 0x00] ∧
    parseTriplet parse [0x02, 0x05, 0x67, 0x02, 0x09, 0x00]
      = .ok (.triplet (.int 5) (.bool true) (.int 9)) [0x00] ∧
    parsePair parse [0x99, 0x00] = .err .nil [] .unknownMarker ∧
    parseTriplet parse [0x99, 0x00] = .err .nil [] .unknownMarker :=
  ⟨((C16_pair_triplet_in_order [0x02, 0x05, 0x67, 0x02, 0x09, 0x00]).1
      (.int 5) [0x67, 0x02, 0x09, 0x00] (.bool true) [0x02, 0x09, 0x00] rfl rfl).1,
   ((C16_pair_triplet_in_order [0x02, 0x05, 0x67, 0x02, 0x09, 0x00]).1
      (.int 5) [0x67, 0x02, 0x09, 0x00] (.bool true) [0x02, 0x09, 0x00] rfl rfl).2
      (.int 9) [0x00] rfl,
   ((C16_pair_triplet_in_order [0x99, 0x00]).2.1 .nil [] .unknownMarker rfl).1,
   ((C16_pair_triplet_in_order [0x99, 0x00]).2.1 .nil [] .unknownMarker rfl).2⟩

theorem take_succ_set {α : Type} (l : List α) (i : Nat) (a : α) (h : i < l.length) :
    (l.set i a).take (i + 1) = l.take i ++ [a] := by
  rw [List.set_eq_take_append_cons_drop, if_pos h, List.take_append_eq_append_take]
  have hlen : (List.take i l).length = i := by
    rw [List.length_take]; omega
  rw [hlen]
  simp

/-- The loop of `parseSlice`, when it returns: positions `i .. i+k-1` of the slice hold the
`k` values decoded in order, the other positions are untouched. -/
theorem parseSliceLoop_ok (p : List Byte → Res Value) :
    ∀ (k i : Nat) (slice : List Value) (body : List Byte) (out : List Value) (r : List Byte),
      parseSliceLoop p k i slice body = .ok out r → i + k ≤ slice.length →
      ∃ xs : List Value, xs.length = k ∧ decodesInOrder p body xs r ∧
        out = slice.take i ++ xs ++ slice.drop (i + k) := by
  intro k
  induction k with
  | zero =>
    intro i slice body out r h _
    simp only [parseSliceLoop, Res.ok.injEq] at h
    refine ⟨[], rfl, ?_, ?_⟩
    · exact h.2.symm
    · rw [← h.1]; simp
  | succ k ih =>
    intro i slice body out r h hlen
    unfold parseSliceLoop at h
    cases h1 : p body with
    | ok v b1 =>
      rw [h1] at h
      simp only [Res.bind] at h
      obtain ⟨xs, hxs, hdec, hout⟩ := ih (i + 1) (slice.set i v) b1 out r h
        (by rw [List.length_set]; omega)
      refine ⟨v :: xs, by simp [hxs], ⟨b1, h1, hdec⟩, ?_⟩
      rw [hout, take_succ_set slice i v (by omega),
        List.drop_set_of_lt v slice (by omega : i < i + 1 + k)]
      have hk : i + 1 + k = i + (k + 1) := by omega
      rw [hk]
      simp
    | err _ _ _ => rw [h1] at h; simp [Res.bind] at h
    | panic => rw [h1] at h; simp [Res.bind] at h
    | diverge => rw [h1] at h; simp [Res.bind] at h

/-- What `parseSlice` returns, when it returns. -/
theorem parseSlice_ok (p : List Byte → Res Value) (c r : List Byte) (xs : List Value)
    (h : parseSlice p c = .ok xs r) :
    ∃ n c1, parseInteger c = .ok n c1 ∧ (xs.length : Int) = n ∧ decodesInOrder p c1 xs r := by
  unfold parseSlice at h
  cases h1 : parseInteger c with
  | ok n c1 =>
    rw [h1] at h
    simp only [Res.bind] at h
    have hn0 : 0 ≤ n := parseInteger_nonneg h1
    rw [if_neg (by omega)] at h
    obtain ⟨ys, hys, hdec, hout⟩ := parseSliceLoop_ok p n.toNat 0 _ c1 xs r h (by simp)
    have hxs : xs = ys := by
      rw [hout]
      simp
    subst hxs
    exact ⟨n, c1, rfl, by omega, hdec⟩
  | err _ _ _ => rw [h1] at h; simp [Res.bind] at h
  | panic => rw [h1] at h; simp [Res.bind] at h
  | diverge => rw [h1] at h; simp [Res.bind] at h

/-- C17: when `parseSlice` (marker `0x16`) succeeds on a cursor whose leading varint is `n`,
the result has exactly `n` elements, each decoded by `parse` from the remainder left by the
one before (the first right after the count), and the returned remainder is the one left by
the last; with `n = 0` the result is empty and the remainder is the cursor after the count. -/
theorem C17_parseSlice_elements (c r : List Byte) (xs : List Value)
    (h : parseSlice parse c = .ok xs r) :
    parse (0x16 :: c) = .ok (.slice xs) r ∧
    ∃ n c1, parseInteger c = .ok n c1 ∧ (xs.length : Int) = n ∧
      decodesInOrder parse c1 xs r ∧ (n = 0 → xs = [] ∧ r = c1) := by
  obtain ⟨n, c1, hn, hlen, hdec⟩ := parseSlice_ok parse c r xs h
  obtain ⟨b, c', rfl⟩ : ∃ b c', c = b :: c' := by
    cases c with
    | nil =>
      have hle := (parseInteger_advances []).length_le hn
      simp at hle
    | cons b c' => exact ⟨b, c', rfl⟩
  refine ⟨?_, n, c1, hn, hlen, hdec, ?_⟩
  · rw [parse_cons_cons]
    show Res.map Value.slice (parseSlice parse (b :: c')) = _
    rw [h]
    rfl
  · intro h0
    have hnil : xs = [] := by
      rw [h0] at hlen
      exact List.length_eq_zero.mp (by exact_mod_cast hlen)
    subst hnil
    exact ⟨rfl, hdec⟩

/-- Witness of C17: the count 2, then the integer 5 and `true`, then one more byte. -/
theorem C17_parseSlice_elements_witness :
    parse (0x16 :: [0x02, 0x02, 0x05, 0x67, 0x00]) = .ok (.slice [.int 5, .bool true]) [0x00] ∧
    ∃ n c1, parseInteger [0x02, 0x02, 0x05, 0x67, 0x00] = .ok n c1 ∧
      (([.int 5, .bool true] : List Value).length : Int) = n ∧
      decodesInOrder parse c1 [.int 5, .bool true] [0x00] ∧
      (n = 0 → ([.int 5, .bool true] : List Value) = [] ∧ ([0x00] : List Byte) = c1) :=
  C17_parseSlice_elements [0x02, 0x02, 0x05, 0x67, 0x00] [0x00] [.int 5, .bool true] rfl

/-- Counterexample of C18: the cursors `[0x64, 0x01, 0x02, 0x07]` and
`[0x67, 0x01, 0x02, 0x07]` have type tags that decode to different values (`nil` and `true`)
and the same single element; `parseTypedSlice`, and `parse` behind the marker `0x14`, return
the same result on both. -/
theorem C18_parseTypedSlice_counterexample :
    parse [0x64, 0x01, 0x02, 0x07] = .ok .nil [0x01, 0x02, 0x07] ∧
    parse [0x67, 0x01, 0x02, 0x07] = .ok (.bool true) [0x01, 0x02, 0x07] ∧
    Value.nil ≠ Value.bool true ∧
    parseTypedSlice parse [0x64, 0x01, 0x02, 0x07] = .ok [.int 7] [] ∧
    parseTypedSlice parse [0x67, 0x01, 0x02, 0x07] = .ok [.int 7] [] ∧
    ¬ (parseTypedSlice parse [0x64, 0x01, 0x02, 0x07]
        ≠ parseTypedSlice parse [0x67, 0x01, 0x02, 0x07]) ∧
    ¬ (parse [0x14, 0x64, 0x01, 0x02, 0x07] ≠ parse [0x14, 0x67, 0x01, 0x02, 0x07]) := by
  have h1 : parseTypedSlice parse [0x64, 0x01, 0x02, 0x07] = .ok [.int 7] [] := rfl
  have h2 : parseTypedSlice parse [0x67, 0x01, 0x02, 0x07] = .ok [.int 7] [] := rfl
  have h3 : parse [0x14, 0x64, 0x01, 0x02, 0x07] = .ok (.slice [.int 7]) [] := rfl
  have h4 : parse [0x14, 0x67, 0x01, 0x02, 0x07] = .ok (.slice [.int 7]) [] := rfl
  exact ⟨rfl, rfl, fun h => Value.noConfusion h, h1, h2,
    fun h => h (h1.trans h2.symm), fun h => h (h3.trans h4.symm)⟩

/-- C18 (amended): `parseTypedSlice` decodes the type tag and discards it: on a cursor whose
type tag decodes leaving `c1`, its outcome is that of `parseSlice` on `c1`, so two cursors
whose type tags decode to any two values and leave the same `c1` give the same outcome; when
it succeeds the result is the `n` elements, decoded in order after the varint count `n`. -/
theorem C18_parseTypedSlice_discards_tag (c c1 : List Byte) (typ : Value)
    (h : parse c = .ok typ c1) :
    parseTypedSlice parse c = parseSlice parse c1 ∧
    (∀ c2 typ2, parse c2 = .ok typ2 c1 →
      parseTypedSlice parse c2 = parseTypedSlice parse c) ∧
    (∀ xs r, parseTypedSlice parse c = .ok xs r →
      ∃ n c3, parseInteger c1 = .ok n c3 ∧ (xs.length : Int) = n ∧
        decodesInOrder parse c3 xs r) := by
  have heq : ∀ c2 typ2, parse c2 = .ok typ2 c1 →
      parseTypedSlice parse c2 = parseSlice parse c1 := by
    intro c2 typ2 h2
    unfold parseTypedSlice parseSlice
    rw [h2]
    rfl
  refine ⟨heq c typ h, ?_, ?_⟩
  · intro c2 typ2 h2
    rw [heq c2 typ2 h2, heq c typ h]
  · intro xs r hxs
    rw [heq c typ h] at hxs
    exact parseSlice_ok parse c1 r xs hxs

/-- Witness of C18 (amended): the type tag `0x67`, then the count 1 and the integer 7. -/
theorem C18_parseTypedSlice_discards_tag_witness :
    parseTypedSlice parse [0x67, 0x01, 0x02, 0x07] = parseSlice parse [0x01, 0x02, 0x07] ∧
    (∀ c2 typ2, parse c2 = .ok typ2 [0x01, 0x02, 0x07] →
      parseTypedSlice parse c2 = parseTypedSlice parse [0x67, 0x01, 0x02, 0x07]) ∧
    (∀ xs r, parseTypedSlice parse [0x67, 0x01, 0x02, 0x07] = .ok xs r →
      ∃ n c3, parseInteger [0x01, 0x02, 0x07] = .ok n c3 ∧ (xs.length : Int) = n ∧
        decodesInOrder parse c3 xs r) :=
  C18_parseTypedSlice_discards_tag [0x67, 0x01, 0x02, 0x07] [0x01, 0x02, 0x07] (.bool true) rfl

/-! ## `Decode` and errors -/

/-- C19: whenever `Decode` returns an error, the value it returns is `nil` and the container
is as it was before the call (raw payload, algorithm tag and signature); the error is the
too-short error for a payload under 2 bytes, the bad-preamble error for a wrong preamble,
and otherwise the very error `parse` returned.  On success the raw payload is unchanged. -/
theorem C19_Decode_errors_leave_container (v : Viewstate) :
    (∀ val e v2, v.Decode = .ret val (some e) v2 → val = .nil ∧ v2 = v) ∧
    (v.raw.length < 2 → v.Decode = .ret .nil (some .tooShort) v) ∧
    (2 ≤ v.raw.length → v.raw.take 2 ≠ [0xFF, 0x01] →
      v.Decode = .ret .nil (some .badPreamble) v) ∧
    (∀ body x y e, v.raw = 0xFF :: 0x01 :: body → parse body = .err x y e →
      v.Decode = .ret .nil (some e) v) ∧
    (∀ val v2, v.Decode = .ret val none v2 → v2.raw = v.raw) := by
  refine ⟨?_, ?_, ?_, ?_, ?_⟩
  · intro val e v2 h
    unfold Viewstate.Decode Viewstate.DecodeWith at h
    split at h
    · simp only [DecodeRes.ret.injEq] at h
      exact ⟨h.1.symm, h.2.2.symm⟩
    · split at h
      · simp only [DecodeRes.ret.injEq] at h
        exact ⟨h.1.symm, h.2.2.symm⟩
      · split at h
        · split at h
          · simp at h
          · split at h
            · simp at h
            · simp at h
        · simp only [DecodeRes.ret.injEq] at h
          exact ⟨h.1.symm, h.2.2.symm⟩
        · simp at h
        · simp at h
  · intro h
    unfold Viewstate.Decode Viewstate.DecodeWith
    rw [if_pos h]
  · intro h2 hne
    unfold Viewstate.Decode Viewstate.DecodeWith
    rw [if_neg (by omega), if_pos hne]
  · intro body x y e hraw hp
    have hlen : ¬ v.raw.length < 2 := by rw [hraw]; simp
    have htake : v.raw.take 2 = [0xff, 0x01] := by rw [hraw]; rfl
    have hdrop : v.raw.drop 2 = body := by rw [hraw]; rfl
    unfold Viewstate.Decode Viewstate.DecodeWith
    simp only [hlen, htake, hdrop, hp, if_false, ne_eq, not_true_eq_false]
  · intro val v2 h
    unfold Viewstate.Decode Viewstate.DecodeWith at h
    split at h
    · simp at h
    · split at h
      · simp at h
      · split at h
        · split at h
          · simp only [DecodeRes.ret.injEq] at h
            rw [← h.2.2]
          · split at h
            · simp only [DecodeRes.ret.injEq] at h
              rw [← h.2.2]
            · simp only [DecodeRes.ret.injEq] at h
              rw [← h.2.2]
        · simp at h
        · simp at h
        · simp at h

/-- Witness of C19: a container with a tag and a signature already set, whose payload is the
preamble followed by the unknown marker `0x99`. -/
theorem C19_Decode_errors_leave_container_witness :
    Viewstate.Decode ⟨[0xFF, 0x01, 0x99, 0x00], .nil, "unknown", [0x07]⟩
      = .ret .nil (some .unknownMarker) ⟨[0xFF, 0x01, 0x99, 0x00], .nil, "unknown", [0x07]⟩ ∧
    Viewstate.Decode ⟨[0xFF], .nil, "unknown", [0x07]⟩
      = .ret .nil (some .tooShort) ⟨[0xFF], .nil, "unknown", [0x07]⟩ ∧
    Viewstate.Decode ⟨[0x00, 0x01, 0x64, 0x64], .nil, "unknown", [0x07]⟩
      = .ret .nil (some .badPreamble) ⟨[0x00, 0x01, 0x64, 0x64], .nil, "unknown", [0x07]⟩ :=
  ⟨(C19_Decode_errors_leave_container
      ⟨[0xFF, 0x01, 0x99, 0x00], .nil, "unknown", [0x07]⟩).2.2.2.1
      [0x99, 0x00] .nil [] .unknownMarker rfl rfl,
   (C19_Decode_errors_leave_container ⟨[0xFF], .nil, "unknown", [0x07]⟩).2.1 (by decide),
   (C19_Decode_errors_leave_container
      ⟨[0x00, 0x01, 0x64, 0x64], .nil, "unknown", [0x07]⟩).2.2.1 (by decide) (by decide)⟩

/-! ## Termination -/

/-- On a non-empty body, fuel equal to the length of the body is already enough. -/
theorem parseFuel_settled_of_le : ∀ (n m : Nat) (body : List Byte), 1 ≤ n →
    body.length ≤ n → n ≤ m → Settled (parseFuel n body) (parseFuel m body) := by
  intro n
  induction n with
  | zero => intro m body h1 _ _; omega
  | succ k ih =>
    intro m body _ hb hm
    obtain ⟨j, rfl⟩ : ∃ j, m = j + 1 := ⟨m - 1, by omega⟩
    match body, hb with
    | [], _ => exact settled_self (by simp [parseFuel, parseStep])
    | [_], _ => exact settled_self (by simp [parseFuel, parseStep])
    | marker :: b :: rest, hb =>
      have hk : 1 ≤ k := by
        simp only [List.length_cons] at hb
        omega
      exact parseStep_settled (L := (marker :: b :: rest).length) (parseFuel_advances k)
        (fun c hlt => ih j c hk (by omega) (by omega)) (marker :: b :: rest) (le_refl _)

/-- C20: `parse` returns an outcome on every body (the embedding never runs out of fuel);
every recursive call it makes is on a cursor strictly shorter than its own, since replacing
the callee by one that is undefined on every cursor of at least the length of the body
leaves the outcome unchanged; and a budget of `len(body)` nested recursive calls under the
outermost call is enough, which on a non-empty body may even count the outermost call. -/
theorem C20_parse_total (body : List Byte) :
    parse body ≠ .diverge ∧
    parse body
      = parseStep (fun b => if b.length < body.length then parse b else .diverge) body ∧
    (∀ n, body.length ≤ n → parseFuel (n + 1) body = parse body) ∧
    (body ≠ [] → parseFuel body.length body = parse body) := by
  refine ⟨parse_ne_diverge body, ?_, ?_, ?_⟩
  · rw [parse_unfold]
    refine (parseStep_settled (L := body.length) parse_advances ?_ body (le_refl _)).1
    intro b hb
    refine ⟨?_, parse_ne_diverge b⟩
    simp only [hb, if_true]
  · intro n hn
    exact (parseFuel_settled (body.length + 1) (n + 1) body (Nat.lt_succ_self _)
      (by omega)).1.symm
  · intro hne
    have hpos : 1 ≤ body.length := by
      cases body with
      | nil => exact absurd rfl hne
      | cons _ _ => simp
    exact (parseFuel_settled_of_le body.length (body.length + 1) body hpos (le_refl _)
      (by omega)).1

/-- Witness of C20: a pair nested in a pair, 6 bytes long, decoded with a budget of 6
calls. -/
theorem C20_parse_total_witness :
    parseFuel 6 [0x0F, 0x0F, 0x64, 0x64, 0x64, 0x00]
      = parse [0x0F, 0x0F, 0x64, 0x64, 0x64, 0x00] ∧
    parseFuel (6 + 1) [0x0F, 0x0F, 0x64, 0x64, 0x64, 0x00]
      = parse [0x0F, 0x0F, 0x64, 0x64, 0x64, 0x00] ∧
    parse [0x0F, 0x0F, 0x64, 0x64, 0x64, 0x00] = .ok (.pair (.pair .nil .nil) .nil) [0x00] :=
  ⟨(C20_parse_total [0x0F, 0x0F, 0x64, 0x64, 0x64, 0x00]).2.2.2 (by simp),
   (C20_parse_total [0x0F, 0x0F, 0x64, 0x64, 0x64, 0x00]).2.2.1 6 (by decide), rfl⟩

/-! ## `parseMap` -/

theorem mapLookup_mapInsert_self (k : List Byte) (v : Value) :
    ∀ m : List (List Byte × Value), mapLookup k (mapInsert k v m) = some v := by
  intro m
  induction m with
  | nil => simp [mapInsert, mapLookup]
  | cons e m ih =>
    obtain ⟨k2, v2⟩ := e
    unfold mapInsert
    by_cases h1 : k = k2
    · simp [h1, mapLookup]
    · by_cases h2 : k < k2
      · simp [h1, h2, mapLookup]
      · simp [h1, h2, mapLookup, ih]

theorem mapLookup_mapInsert_ne (k k3 : List Byte) (v : Value) (hne : k3 ≠ k) :
    ∀ m : List (List Byte × Value), mapLookup k3 (mapInsert k v m) = mapLookup k3 m := by
  intro m
  induction m with
  | nil => simp [mapInsert, mapLookup, hne]
  | cons e m ih =>
    obtain ⟨k2, v2⟩ := e
    unfold mapInsert
    by_cases h1 : k = k2
    · subst h1
      simp [mapLookup, hne]
    · by_cases h2 : k < k2
      · simp [h1, h2, mapLookup, hne]
      · simp [h1, h2, mapLookup, ih]

theorem mem_keys_mapInsert (k k3 : List Byte) (v : Value) :
    ∀ m : List (List Byte × Value),
      k3 ∈ (mapInsert k v m).map Prod.fst ↔ k3 = k ∨ k3 ∈ m.map Prod.fst := by
  intro m
  induction m with
  | nil => simp [mapInsert]
  | cons e m ih =>
    obtain ⟨k2, v2⟩ := e
    unfold mapInsert
    by_cases h1 : k = k2
    · subst h1
      simp
    · by_cases h2 : k < k2
      · simp [h1, h2]
      · simp only [h1, h2, if_false, List.map_cons, List.mem_cons, ih]
        tauto

theorem length_mapInsert_le (k : List Byte) (v : Value) :
    ∀ m : List (List Byte × Value), (mapInsert k v m).length ≤ m.length + 1 := by
  intro m
  induction m with
  | nil => simp [mapInsert]
  | cons e m ih =>
    obtain ⟨k2, v2⟩ := e
    unfold mapInsert
    by_cases h1 : k = k2
    · simp [h1]
    · by_cases h2 : k < k2
      · simp [h1, h2]
      · simp only [h1, h2, if_false, List.length_cons]
        omega

/-- The assignment `m[k] = v` keeps the keys strictly increasing. -/
theorem sorted_mapInsert (k : List Byte) (v : Value) :
    ∀ m : List (List Byte × Value), (m.map Prod.fst).Pairwise (fun a b => a < b) →
      ((mapInsert k v m).map Prod.fst).Pairwise (fun a b => a < b) := by
  intro m
  induction m with
  | nil => intro _; simp [mapInsert]
  | cons e m ih =>
    obtain ⟨k2, v2⟩ := e
    intro hs
    simp only [List.map_cons, List.pairwise_cons] at hs
    obtain ⟨hhead, htail⟩ := hs
    unfold mapInsert
    by_cases h1 : k = k2
    · subst h1
      simp only [if_true, List.map_cons, List.pairwise_cons]
      exact ⟨hhead, htail⟩
    · by_cases h2 : k < k2
      · simp only [h1, h2, if_true, if_false, List.map_cons, List.pairwise_cons]
        refine ⟨?_, hhead, htail⟩
        intro x hx
        rcases List.mem_cons.mp hx with rfl | hx
        · exact h2
        · exact lt_trans h2 (hhead x hx)
      · simp only [h1, h2, if_false, List.map_cons, List.pairwise_cons]
        refine ⟨?_, ih htail⟩
        intro x hx
        rcases (mem_keys_mapInsert k x v m).mp hx with rfl | hx
        · rcases lt_trichotomy x k2 with h | h | h
          · exact absurd h h2
          · exact absurd h h1
          · exact h
        · exact hhead x hx

theorem mapEntries_succ (p : List Byte → Res Value) (k : Nat) (body : List Byte)
    (kvs : List (Value × Value)) (r : List Byte)
    (h : mapEntries p (k + 1) body = some (kvs, r)) :
    ∃ key b1 val b2 kvs2, p body = .ok key b1 ∧ p b1 = .ok val b2 ∧
      mapEntries p k b2 = some (kvs2, r) ∧ kvs = (key, val) :: kvs2 := by
  unfold mapEntries at h
  cases h1 : p body with
  | ok key b1 =>
    rw [h1] at h
    simp only at h
    cases h2 : p b1 with
    | ok val b2 =>
      rw [h2] at h
      simp only at h
      cases h3 : mapEntries p k b2 with
      | none => rw [h3] at h; simp at h
      | some er =>
        obtain ⟨kvs2, r2⟩ := er
        rw [h3] at h
        simp only [Option.some.injEq, Prod.mk.injEq] at h
        obtain ⟨rfl, rfl⟩ := h
        exact ⟨key, b1, val, b2, kvs2, rfl, h2, h3, rfl⟩
    | err _ _ _ => rw [h2] at h; simp at h
    | panic => rw [h2] at h; simp at h
    | diverge => rw [h2] at h; simp at h
  | err _ _ _ => rw [h1] at h; simp at h
  | panic => rw [h1] at h; simp at h
  | diverge => rw [h1] at h; simp at h

theorem mapEntries_length (p : List Byte → Res Value) :
    ∀ (k : Nat) (body : List Byte) (kvs : List (Value × Value)) (r : List Byte),
      mapEntries p k body = some (kvs, r) → kvs.length = k := by
  intro k
  induction k with
  | zero =>
    intro body kvs r h
    simp only [mapEntries, Option.some.injEq, Prod.mk.injEq] at h
    rw [← h.1]; rfl
  | succ k ih =>
    intro body kvs r h
    obtain ⟨key, b1, val, b2, kvs2, _, _, h3, rfl⟩ := mapEntries_succ p k body kvs r h
    rw [List.length_cons, ih b2 kvs2 r h3]

/-- The loop of `parseMap` on entries that all decode: the entries are assigned in order. -/
theorem parseMapLoop_entries (p : List Byte → Res Value) :
    ∀ (k : Nat) (m : List (List Byte × Value)) (body : List Byte)
      (kvs : List (Value × Value)) (r : List Byte), mapEntries p k body = some (kvs, r) →
      parseMapLoop p k m body
        = .ok (kvs.foldl (fun m kv => mapInsert (fmtV kv.1) kv.2 m) m) r := by
  intro k
  induction k with
  | zero =>
    intro m body kvs r h
    simp only [mapEntries, Option.some.injEq, Prod.mk.injEq] at h
    obtain ⟨rfl, rfl⟩ := h
    rfl
  | succ k ih =>
    intro m body kvs r h
    obtain ⟨key, b1, val, b2, kvs2, h1, h2, h3, rfl⟩ := mapEntries_succ p k body kvs r h
    unfold parseMapLoop
    rw [h1]
    simp only [Res.bind, h2]
    rw [ih (mapInsert (fmtV key) val m) b2 kvs2 r h3]
    rfl

theorem foldl_mapInsert_keys : ∀ (kvs : List (Value × Value)) (m : List (List Byte × Value))
    (key : List Byte),
    key ∈ (kvs.foldl (fun m kv => mapInsert (fmtV kv.1) kv.2 m) m).map Prod.fst ↔
      key ∈ m.map Prod.fst ∨ ∃ kv ∈ kvs, fmtV kv.1 = key := by
  intro kvs
  induction kvs with
  | nil => intro m key; simp
  | cons kv kvs ih =>
    intro m key
    rw [List.foldl_cons, ih, mem_keys_mapInsert]
    simp only [List.mem_cons, exists_eq_or_imp]
    constructor
    · rintro ((h | h) | h)
      · exact Or.inr (Or.inl h.symm)
      · exact Or.inl h
      · exact Or.inr (Or.inr h)
    · rintro (h | h | h)
      · exact Or.inl (Or.inr h)
      · exact Or.inl (Or.inl h.symm)
      · exact Or.inr h

theorem foldl_mapInsert_length : ∀ (kvs : List (Value × Value))
    (m : List (List Byte × Value)),
    (kvs.foldl (fun m kv => mapInsert (fmtV kv.1) kv.2 m) m).length ≤ m.length + kvs.length := by
  intro kvs
  induction kvs with
  | nil => intro m; simp
  | cons kv kvs ih =>
    intro m
    rw [List.foldl_cons, List.length_cons]
    have h1 := ih (mapInsert (fmtV kv.1) kv.2 m)
    have h2 := length_mapInsert_le (fmtV kv.1) kv.2 m
    omega

theorem foldl_mapInsert_sorted : ∀ (kvs : List (Value × Value))
    (m : List (List Byte × Value)), (m.map Prod.fst).Pairwise (fun a b => a < b) →
    ((kvs.foldl (fun m kv => mapInsert (fmtV kv.1) kv.2 m) m).map Prod.fst).Pairwise
      (fun a b => a < b) := by
  intro kvs
  induction kvs with
  | nil => intro m h; exact h
  | cons kv kvs ih =>
    intro m h
    rw [List.foldl_cons]
    exact ih _ (sorted_mapInsert _ _ m h)

theorem foldl_mapInsert_lookup_other : ∀ (kvs : List (Value × Value))
    (m : List (List Byte × Value)) (key : List Byte), (∀ kv ∈ kvs, fmtV kv.1 ≠ key) →
    mapLookup key (kvs.foldl (fun m kv => mapInsert (fmtV kv.1) kv.2 m) m) = mapLookup key m := by
  intro kvs
  induction kvs with
  | nil => intro m key _; rfl
  | cons kv kvs ih =>
    intro m key h
    rw [List.foldl_cons, ih _ key (fun e he => h e (by simp [he]))]
    exact mapLookup_mapInsert_ne _ key _ (fun heq => h kv (by simp) heq.symm) m

theorem foldl_mapInsert_lookup_last : ∀ (kvs : List (Value × Value))
    (m : List (List Byte × Value)) (j : Nat) (hj : j < kvs.length),
    (∀ j2, ∀ hj2 : j2 < kvs.length, j < j2 →
      fmtV (kvs.get ⟨j2, hj2⟩).1 ≠ fmtV (kvs.get ⟨j, hj⟩).1) →
    mapLookup (fmtV (kvs.get ⟨j, hj⟩).1)
        (kvs.foldl (fun m kv => mapInsert (fmtV kv.1) kv.2 m) m)
      = some (kvs.get ⟨j, hj⟩).2 := by
  intro kvs
  induction kvs with
  | nil => intro m j hj; simp at hj
  | cons kv kvs ih =>
    intro m j hj hlast
    rw [List.foldl_cons]
    cases j with
    | zero =>
      show mapLookup (fmtV kv.1) _ = some kv.2
      rw [foldl_mapInsert_lookup_other kvs _ (fmtV kv.1)]
      · exact mapLookup_mapInsert_self _ _ m
      · intro e he
        obtain ⟨i, hi⟩ := List.get_of_mem he
        have h2 := hlast (i.val + 1) (by simp) (by omega)
        rw [← hi]
        exact h2
    | succ j =>
      have hj2 : j < kvs.length := by simpa using hj
      exact ih (mapInsert (fmtV kv.1) kv.2 m) j hj2 (by
        intro j2 hj3 hlt
        exact hlast (j2 + 1) (by simpa using hj3) (by omega))

/-- C12: on a mapping encoding whose entries all decode, the key set of the resulting map is
exactly the set of the renderings (`%v`) of the decoded keys, and each key maps to the value
of the last entry, in encoding order, whose key has that rendering; the keys are distinct
and the map has at most as many entries as the encoding.  With count `0x02` and the keys
integer 1 and text "1", which both render as "1", the map has the single entry of the
second pair. -/
theorem C12_parseMap_last_entry_wins (c : Byte) (rest r : List Byte)
    (kvs : List (Value × Value)) (h : mapEntries parse c.val rest = some (kvs, r)) :
    ∃ m : List (List Byte × Value), parseMap parse (c :: rest) = .ok m r ∧
      parse (0x18 :: c :: rest) = .ok (.map m) r ∧
      kvs.length = c.val ∧
      (∀ key, key ∈ m.map Prod.fst ↔ ∃ kv ∈ kvs, fmtV kv.1 = key) ∧
      (∀ j, ∀ hj : j < kvs.length,
        (∀ j2, ∀ hj2 : j2 < kvs.length, j < j2 →
          fmtV (kvs.get ⟨j2, hj2⟩).1 ≠ fmtV (kvs.get ⟨j, hj⟩).1) →
        mapLookup (fmtV (kvs.get ⟨j, hj⟩).1) m = some (kvs.get ⟨j, hj⟩).2) ∧
      (m.map Prod.fst).Nodup ∧ m.length ≤ kvs.length ∧
      parse [0x18, 0x02, 0x02, 0x01, 0x67, 0x05, 0x01, 49, 0x68, 0x00]
        = .ok (.map [([49], .bool false)]) [0x00] := by
  have hloop := parseMapLoop_entries parse c.val [] rest kvs r h
  have hpm : parseMap parse (c :: rest)
      = .ok (kvs.foldl (fun m kv => mapInsert (fmtV kv.1) kv.2 m) []) r := hloop
  refine ⟨_, hpm, ?_, mapEntries_length parse _ _ _ _ h, ?_, ?_, ?_, ?_, rfl⟩
  · rw [parse_unfold]
    show Res.map Value.map (parseMap parse (c :: rest)) = _
    rw [hpm]
    rfl
  · intro key
    rw [foldl_mapInsert_keys]
    simp
  · intro j hj hlast
    exact foldl_mapInsert_lookup_last kvs [] j hj hlast
  · have hs := foldl_mapInsert_sorted kvs [] (by simp)
    exact hs.imp (fun hlt => ne_of_lt hlt)
  · have := foldl_mapInsert_length kvs []
    simpa using this

/-- Witness of C12: count 2, the key integer 1 with value `true`, then the key text "1" with
value `false`, then one more byte. -/
theorem C12_parseMap_last_entry_wins_witness :
    ∃ m : List (List Byte × Value),
      parseMap parse (0x02 :: [0x02, 0x01, 0x67, 0x05, 0x01, 49, 0x68, 0x00]) = .ok m [0x00] ∧
      parse (0x18 :: 0x02 :: [0x02, 0x01, 0x67, 0x05, 0x01, 49, 0x68, 0x00])
        = .ok (.map m) [0x00] ∧
      ([(Value.int 1, Value.bool true), (Value.str [49], Value.bool false)]).length
        = (0x02 : Byte).val ∧
      (∀ key, key ∈ m.map Prod.fst ↔
        ∃ kv ∈ [(Value.int 1, Value.bool true), (Value.str [49], Value.bool false)],
          fmtV kv.1 = key) ∧
      (∀ j, ∀ hj : j < [(Value.int 1, Value.bool true), (Value.str [49], Value.bool false)].length,
        (∀ j2, ∀ hj2 : j2 <
            [(Value.int 1, Value.bool true), (Value.str [49], Value.bool false)].length, j < j2 →
          fmtV ([(Value.int 1, Value.bool true), (Value.str [49], Value.bool false)].get
              ⟨j2, hj2⟩).1
            ≠ fmtV ([(Value.int 1, Value.bool true), (Value.str [49], Value.bool false)].get
              ⟨j, hj⟩).1) →
        mapLookup
            (fmtV ([(Value.int 1, Value.bool true), (Value.str [49], Value.bool false)].get
              ⟨j, hj⟩).1) m
          = some ([(Value.int 1, Value.bool true), (Value.str [49], Value.bool false)].get
              ⟨j, hj⟩).2) ∧
      (m.map Prod.fst).Nodup ∧
      m.length ≤ [(Value.int 1, Value.bool true), (Value.str [49], Value.bool false)].length ∧
      parse [0x18, 0x02, 0x02, 0x01, 0x67, 0x05, 0x01, 49, 0x68, 0x00]
        = .ok (.map [([49], .bool false)]) [0x00] :=
  C12_parseMap_last_entry_wins 0x02 [0x02, 0x01, 0x67, 0x05, 0x01, 49, 0x68, 0x00] [0x00]
    [(.int 1, .bool true), (.str [49], .bool false)] rfl

/-- C13: on a cursor `c :: rest` the mapping decoder takes the count to be the value of the
single byte `c` (0 to 255) and decodes the key/value pairs from `rest` on; the count is not
a varint: with the count byte `0x80` it decodes 128 entries starting at the next byte, and
with the count 0 it returns the empty map and `rest`. -/
theorem C13_parseMap_count_is_one_byte (c : Byte) (rest : List Byte) :
    parseMap parse (c :: rest) = parseMapLoop parse c.val [] rest ∧
    c.val ≤ 255 ∧
    parseMap parse (0x00 :: rest) = .ok [] rest ∧
    parseMap parse (0x80 :: rest) = parseMapLoop parse 128 [] rest ∧
    (∀ kvs r, mapEntries parse c.val rest = some (kvs, r) →
      kvs.length = c.val ∧ ∃ m, parseMap parse (c :: rest) = .ok m r) ∧
    (0 < c.val → ∀ x y e, parse rest = .err x y e →
      parseMap parse (c :: rest) = .err [] [] e) ∧
    parseInteger [0x80, 0x99, 0x00] = .ok 3200 [] ∧
    parse [0x18, 0x80, 0x99, 0x00] = .err (.map []) [] .unknownMarker ∧
    parse [0x18, 0x01, 0x01, 0x64, 0x64] = .ok (.map [([60, 110, 105, 108, 62], .nil)]) [0x64] := by
  refine ⟨rfl, by omega, rfl, rfl, ?_, ?_, by decide, rfl, rfl⟩
  · intro kvs r h
    exact ⟨mapEntries_length parse _ _ _ _ h, _, parseMapLoop_entries parse c.val [] rest kvs r h⟩
  · intro hpos x y e herr
    obtain ⟨k, hk⟩ : ∃ k, c.val = k + 1 := ⟨c.val - 1, by omega⟩
    show parseMapLoop parse c.val [] rest = _
    rw [hk]
    unfold parseMapLoop
    rw [herr]
    rfl

/-- Witness of C13: the count byte `0x81` before a cursor that starts with the unknown marker
`0x98`: the first key is decoded right after the count byte and its error is returned. -/
theorem C13_parseMap_count_is_one_byte_witness :
    parseMap parse (0x81 :: [0x98, 0x00]) = .err [] [] .unknownMarker ∧
    parse [0x18, 0x81, 0x98, 0x00] = .err (.map []) [] .unknownMarker :=
  ⟨(C13_parseMap_count_is_one_byte 0x81 [0x98, 0x00]).2.2.2.2.2.1 (by decide)
      .nil [] .unknownMarker rfl, rfl⟩

end Aspgo
